import Mathlib

/-!
# palettor: k-means clustering of colours (`kmeans.Cluster`)

A shallow embedding of `src/src/kmeans/kmeans.go` and of the colour utilities
`ColorEq` and `ColorsXor` of `src/palettor.go`.

* A Go `color.Color` is an interface value: it is either nil or a value with an
  `RGBA()` method.  It is modelled by `Option Color`, `none` being the nil
  interface.  `Color` carries the four `uint32` channels that `RGBA()` returns
  and a `tag` standing for everything else that takes part in Go's `==` on
  interface values (dynamic type and representation): two colours with the same
  channels may still be different map keys.
  Colours are taken to be of comparable dynamic types (as all types of
  `image/color` are), so that `==` and map insertion do not fail.
  A slice of colours is a `List (Option Color)`; like a Go slice it may hold
  nil entries.
* `uint32` arithmetic is arithmetic on `Nat` reduced modulo `2^32`.
* A run-time failure (Go panic) is `Except.error` with a `Fault`.
* `rand.Intn` is driven by a stream `rnd : Nat → Nat`; the `i`-th call
  `Intn(n)` returns `rnd i % n`, so every outcome in `[0, n)` is reachable.
* The `clusters` map is an association list with distinct keys kept in order of
  first insertion; the order in which Go ranges over it in iteration `i` is the
  permutation of that list selected by the number `ord i` (`mapOrder`).
* `float64(a) / float64(b)` is modelled by the exact rational `a / b`.
-/

namespace Kmeans

/-- Modulus of `uint32` arithmetic. -/
def W32 : Nat := 4294967296

/-- Modulus of `uint16` arithmetic. -/
def W16 : Nat := 65536

/-- A non-nil `color.Color`: the channels returned by `RGBA()` and the identity
of the value under Go's interface equality. -/
structure Color where
  R : Nat
  G : Nat
  B : Nat
  A : Nat
  tag : Nat
deriving DecidableEq, Repr

/-- Run-time failures of the Go program. -/
inductive Fault where
  | nilDereference
  | indexOutOfRange
  | divideByZero
  | makeSliceLen
  | intnArgument
deriving DecidableEq, Repr

/-- The error value returned by `Cluster`:
`fmt.Errorf("too few observations for k (%d < %d)", observationCount, k)`. -/
structure TooFew where
  observationCount : Int
  k : Int
deriving DecidableEq, Repr

/-- Addition of `uint32` values. -/
def add32 (a b : Nat) : Nat := (a + b) % W32

/-- Subtraction of `uint32` values (wraps around below zero). -/
def sub32 (a b : Nat) : Nat := (a % W32 + (W32 - b % W32)) % W32

/-- Multiplication of `uint32` values. -/
def mul32 (a b : Nat) : Nat := (a * b) % W32

/-- Go `distance`: the square of the Euclidean distance between two colours, in
`uint32` arithmetic.  Calling `RGBA()` on a nil colour panics. -/
def distance (a b : Option Color) : Except Fault Nat :=
  match a with
  | none => .error .nilDereference
  | some ca =>
    match b with
    | none => .error .nilDereference
    | some cb =>
      let dr := sub32 ca.R cb.R
      let dg := sub32 ca.G cb.G
      let db := sub32 ca.B cb.B
      .ok (add32 (add32 (mul32 dr dr) (mul32 dg dg)) (mul32 db db))

/-- The `for i, candidate := range haystack` loop of `nearest`, started at index
`i` with the current `minDist` and `result`. -/
def nearestLoop (needle : Option Color) :
    List (Option Color) → Nat → Nat → Option Color → Except Fault (Option Color)
  | [], _, _, result => .ok result
  | candidate :: rest, i, minDist, result =>
    match distance needle candidate with
    | .error f => .error f
    | .ok dist =>
      if i = 0 ∨ dist < minDist then nearestLoop needle rest (i + 1) dist candidate
      else nearestLoop needle rest (i + 1) minDist result

/-- Go `nearest`: the item in the haystack to which the needle is closest (nil
for an empty haystack). -/
def nearest (needle : Option Color) (haystack : List (Option Color)) :
    Except Fault (Option Color) :=
  nearestLoop needle haystack 0 0 none

/-- The accumulators `r, g, b, a, count` of `findCentroid`. -/
structure Sums where
  r : Nat
  g : Nat
  b : Nat
  a : Nat
  count : Nat
deriving DecidableEq, Repr

/-- The summation loop of `findCentroid`. -/
def sumLoop : List (Option Color) → Sums → Except Fault Sums
  | [], s => .ok s
  | none :: _, _ => .error .nilDereference
  | some x :: rest, s =>
    sumLoop rest ⟨add32 s.r x.R, add32 s.g x.G, add32 s.b x.B, add32 s.a x.A, add32 s.count 1⟩

/-- The `&color.RGBA64` built by `findCentroid`; each quotient is cut to
`uint16`.  It is a fresh value, only its channels are ever read. -/
def center (s : Sums) : Color :=
  ⟨(s.r / s.count) % W16, (s.g / s.count) % W16, (s.b / s.count) % W16,
   (s.a / s.count) % W16, 0⟩

/-- Go `findCentroid`: the observation closest to the mean of the given
observations.  The division panics when `count` is zero. -/
def findCentroid (observations : List (Option Color)) : Except Fault (Option Color) :=
  match sumLoop observations ⟨0, 0, 0, 0, 0⟩ with
  | .error f => .error f
  | .ok s =>
    if s.count = 0 then .error .divideByZero
    else nearest (some (center s)) observations

/-- The Go map `map[color.Color][]color.Color`. -/
abbrev Clusters := List (Option Color × List (Option Color))

/-- Go `clusters[centroid] = append(clusters[centroid], x)`. -/
def appendTo : Clusters → Option Color → Option Color → Clusters
  | [], centroid, x => [(centroid, [x])]
  | (key, members) :: rest, centroid, x =>
    if key = centroid then (key, members ++ [x]) :: rest
    else (key, members) :: appendTo rest centroid x

/-- The assignment loop of `Cluster`: each observation joins the cluster of its
nearest centroid. -/
def assign (centroids : List (Option Color)) :
    List (Option Color) → Clusters → Except Fault Clusters
  | [], clusters => .ok clusters
  | x :: rest, clusters =>
    match nearest x centroids with
    | .error f => .error f
    | .ok centroid => assign centroids rest (appendTo clusters centroid x)

/-- Insert `x` so that it gets position `i` (position `length` when `i` is larger). -/
def insertAt {α : Type} (i : Nat) (x : α) (l : List α) : List α :=
  l.take i ++ x :: l.drop i

/-- The order in which a `range` over a map visits its entries: the permutation
of the entries selected by `code`. -/
def mapOrder {α : Type} : Nat → List α → List α
  | _, [] => []
  | code, x :: xs =>
    insertAt (code % (xs.length + 1)) x (mapOrder (code / (xs.length + 1)) xs)

/-- The variables `converged`, `newCentroids`, `j` of the update loop. -/
structure UpdateState where
  converged : Bool
  newCentroids : List (Option Color)
  j : Nat
deriving DecidableEq, Repr

/-- The update loop of `Cluster` over the entries of `clusters` in the order
given. -/
def update : Clusters → UpdateState → Except Fault UpdateState
  | [], st => .ok st
  | (centroid, cluster) :: rest, st =>
    match findCentroid cluster with
    | .error f => .error f
    | .ok newCentroid =>
      if st.j < st.newCentroids.length then
        update rest
          ⟨if newCentroid ≠ centroid then false else st.converged,
           st.newCentroids.set st.j newCentroid, st.j + 1⟩
      else .error .indexOutOfRange

/-- The state of `Cluster` when its main loop is left: the clusters of the last
executed iteration, the centroid list, the number of executed iterations and
whether the loop was left through `break`. -/
structure LoopState where
  clusters : Clusters
  centroids : List (Option Color)
  iterations : Nat
  converged : Bool
deriving DecidableEq, Repr

/-- The main loop of `Cluster` with `n` iterations left, `i` being the loop
counter. -/
def loop (ord : Nat → Nat) (k : Nat) (observations : List (Option Color)) :
    Nat → Nat → List (Option Color) → Clusters → Except Fault LoopState
  | 0, i, centroids, clusters => .ok ⟨clusters, centroids, i, false⟩
  | n + 1, i, centroids, _ =>
    match assign centroids observations [] with
    | .error f => .error f
    | .ok clusters =>
      match update (mapOrder (ord i) clusters) ⟨true, List.replicate k none, 0⟩ with
      | .error f => .error f
      | .ok st =>
        if st.converged then .ok ⟨clusters, st.newCentroids, i + 1, true⟩
        else loop ord k observations n (i + 1) st.newCentroids clusters

/-- Go `r.Intn(n)` at the `call`-th use of the generator; it panics for `n ≤ 0`. -/
def intn (rnd : Nat → Nat) (call n : Nat) : Except Fault Nat :=
  if n = 0 then .error .intnArgument else .ok (rnd call % n)

/-- The initialisation loop of `Cluster`, with `n` centroids left to draw and
loop counter `i`. -/
def drawCentroids (rnd : Nat → Nat) (observations : List (Option Color)) :
    Nat → Nat → Except Fault (List (Option Color))
  | 0, _ => .ok []
  | n + 1, i =>
    match intn rnd i observations.length with
    | .error f => .error f
    | .ok idx =>
      match observations[idx]? with
      | none => .error .indexOutOfRange
      | some x =>
        match drawCentroids rnd observations n (i + 1) with
        | .error f => .error f
        | .ok rest => .ok (x :: rest)

/-- The map `map[color.Color]float64` returned by `Cluster`. -/
abbrev Weights := List (Option Color × ℚ)

/-- The final loop of `Cluster`: the weight of a cluster is its size relative to
the number of observations. -/
def clusterWeights (clusters : Clusters) (observationCount : Nat) : Weights :=
  clusters.map fun e => (e.1, (e.2.length : ℚ) / (observationCount : ℚ))

/-- Go `Cluster`.  The outer `Except` is a run-time failure, the inner one the
returned `error`; `k` and `maxIterations` are Go `int`s. -/
def Cluster (rnd ord : Nat → Nat) (k : Int) (observations : List (Option Color))
    (maxIterations : Int) : Except Fault (Except TooFew Weights) :=
  if (observations.length : Int) < k then
    .ok (.error ⟨observations.length, k⟩)
  else if k < 0 then .error .makeSliceLen
  else
    match drawCentroids rnd observations k.toNat 0 with
    | .error f => .error f
    | .ok centroids =>
      match loop ord k.toNat observations maxIterations.toNat 0 centroids [] with
      | .error f => .error f
      | .ok st => .ok (.ok (clusterWeights st.clusters observations.length))

/-- The centroid list has `k` entries and each of them is nil or an observation. -/
def CentroidsOk (k : Nat) (observations centroids : List (Option Color)) : Prop :=
  centroids.length = k ∧ ∀ c ∈ centroids, c ≠ none → c ∈ observations

/-- An opaque grey of level `v` (a `color.RGBA64` with equal colour channels and
full alpha), for concrete runs. -/
def grey (v : Nat) : Option Color := some ⟨v, v, v, 65535, 0⟩

/-- The colour `Black = (0, 0, 0, 255)` of the black-and-white scenario. -/
def Black : Option Color := some ⟨0, 0, 0, 255, 0⟩

/-- The colour `White = (65535, 65535, 65535, 255)` of the black-and-white scenario. -/
def White : Option Color := some ⟨65535, 65535, 65535, 255, 0⟩

/-- The exact truncated mean point of a cluster, in the words of the
specification: each channel is the sum of that channel over all members, taken
as an exact integer, divided by the number of members and rounded down. -/
def meanPoint (cluster : List Color) : Color :=
  ⟨(cluster.map fun c => c.R).sum / cluster.length,
   (cluster.map fun c => c.G).sum / cluster.length,
   (cluster.map fun c => c.B).sum / cluster.length,
   (cluster.map fun c => c.A).sum / cluster.length, 0⟩

end Kmeans

/-! # Colour utilities of package `palettor` (`src/palettor.go`) -/

namespace Palettor

open Kmeans

/-- Go `inBetween` on `uint32` values. -/
def inBetween (i min max : Nat) : Bool :=
  decide (min ≤ i) && decide (i ≤ max)

/-- Go `ColorEq`: the bounds `r2-th` and `r2+th` are computed in `uint32`
arithmetic.  Calling `RGBA()` on a nil colour panics. -/
def ColorEq (th : Nat) (a b : Option Color) : Except Fault Bool :=
  match a with
  | none => .error .nilDereference
  | some ca =>
    match b with
    | none => .error .nilDereference
    | some cb =>
      .ok (inBetween ca.R (sub32 cb.R th) (add32 cb.R th) &&
        inBetween ca.G (sub32 cb.G th) (add32 cb.G th) &&
        inBetween ca.B (sub32 cb.B th) (add32 cb.B th) &&
        decide (ca.A = cb.A))

/-- One of the two inner loops of `ColorsXor`: whether `c` is `ColorEq` to an
element of the list; the loop is left at the first such element. -/
def foundIn (th : Nat) (c : Option Color) : List (Option Color) → Except Fault Bool
  | [] => .ok false
  | s :: rest =>
    match ColorEq th c s with
    | .error f => .error f
    | .ok true => .ok true
    | .ok false => foundIn th c rest

/-- The outer loop of `ColorsXor` over the rest of `src`, `result` being the
slice built so far. -/
def xorLoop (th : Nat) (space : List (Option Color)) :
    List (Option Color) → List (Option Color) → Except Fault (List (Option Color))
  | [], result => .ok result
  | c :: rest, result =>
    match foundIn th c space with
    | .error f => .error f
    | .ok inSpace =>
      match foundIn th c result with
      | .error f => .error f
      | .ok inResult =>
        if inSpace || inResult then xorLoop th space rest result
        else xorLoop th space rest (result ++ [c])

/-- Go `ColorsXor`. -/
def ColorsXor (th : Nat) (src space : List (Option Color)) :
    Except Fault (List (Option Color)) :=
  xorLoop th space src []

/-- Two colours have the same four channel values. -/
def sameRGBA (a b : Color) : Bool :=
  decide (a.R = b.R) && decide (a.G = b.G) && decide (a.B = b.B) && decide (a.A = b.A)

/-- The first occurrences of the colours of a list, colours being told apart by
their channel values: the head is kept and every later colour with its channel
values is dropped from the first occurrences of the tail. -/
def firstOccurrences : List Color → List Color
  | [] => []
  | c :: rest => c :: (firstOccurrences rest).filter fun d => !sameRGBA d c

/-- The distinct colours (by channel values) of `src` that do not occur in
`space`, in order of first occurrence, in the words of the specification. -/
def distinctNotIn (src space : List Color) : List Color :=
  firstOccurrences (src.filter fun c => !space.any fun s => sameRGBA c s)

end Palettor

namespace Kmeans

/-! ## Facts about `distance` and `nearest` -/

theorem distance_ok_some {a b : Option Color} {d : Nat} (h : distance a b = .ok d) :
    a ≠ none ∧ b ≠ none := by
  cases a with
  | none => simp [distance] at h
  | some ca =>
    cases b with
    | none => simp [distance] at h
    | some cb => simp

theorem distance_some_some (a b : Color) :
    ∃ d, distance (some a) (some b) = .ok d := ⟨_, rfl⟩

theorem nearestLoop_ok_mem {needle : Option Color} {hay : List (Option Color)} {i m : Nat}
    {r res : Option Color} (h : nearestLoop needle hay i m r = .ok res) :
    res = r ∨ res ∈ hay := by
  induction hay generalizing i m r with
  | nil =>
    simp only [nearestLoop, Except.ok.injEq] at h
    exact Or.inl h.symm
  | cons c rest ih =>
    simp only [nearestLoop] at h
    cases hd : distance needle c with
    | error f => simp [hd] at h
    | ok d =>
      simp only [hd] at h
      split at h
      · rcases ih h with h1 | h1
        · right; simp [h1]
        · right; simp [h1]
      · rcases ih h with h1 | h1
        · left; exact h1
        · right; simp [h1]

theorem nearestLoop_ok_some {needle : Option Color} {hay : List (Option Color)} {i m : Nat}
    {r res : Option Color} (h : nearestLoop needle hay i m r = .ok res) :
    ∀ c ∈ hay, needle ≠ none ∧ c ≠ none := by
  induction hay generalizing i m r with
  | nil => simp
  | cons c rest ih =>
    simp only [nearestLoop] at h
    cases hd : distance needle c with
    | error f => simp [hd] at h
    | ok d =>
      simp only [hd] at h
      have hc := distance_ok_some hd
      intro x hx
      rcases List.mem_cons.1 hx with rfl | hx
      · exact hc
      · split at h
        · exact ih h x hx
        · exact ih h x hx

/-- A successful `nearest` on a non-empty haystack returns one of its elements,
and neither that element nor the needle is nil. -/
theorem nearest_ok_mem {needle res : Option Color} {hay : List (Option Color)}
    (h : nearest needle hay = .ok res) (hne : hay ≠ []) :
    res ∈ hay ∧ res ≠ none ∧ needle ≠ none := by
  have hall := nearestLoop_ok_some h
  cases hay with
  | nil => exact absurd rfl hne
  | cons c rest =>
    have hmem : res ∈ c :: rest := by
      unfold nearest at h
      simp only [nearestLoop] at h
      cases hd : distance needle c with
      | error f => simp [hd] at h
      | ok d =>
        simp only [hd, true_or, if_true] at h
        rcases nearestLoop_ok_mem h with h1 | h1
        · simp [h1]
        · simp [h1]
    exact ⟨hmem, (hall res hmem).2, (hall c (by simp)).1⟩

theorem nearest_nil (needle : Option Color) : nearest needle [] = .ok none := rfl

theorem nearestLoop_total (a : Color) (hay : List (Option Color)) (i m : Nat) (r : Option Color)
    (hhay : ∀ c ∈ hay, c ≠ none) : ∃ res, nearestLoop (some a) hay i m r = .ok res := by
  induction hay generalizing i m r with
  | nil => exact ⟨r, rfl⟩
  | cons c rest ih =>
    have hrest : ∀ x ∈ rest, x ≠ none := fun x hx => hhay x (by simp [hx])
    cases c with
    | none => exact absurd rfl (hhay none (by simp))
    | some cc =>
      obtain ⟨d, hd⟩ := distance_some_some a cc
      simp only [nearestLoop, hd]
      split
      · exact ih _ _ _ hrest
      · exact ih _ _ _ hrest

/-- On a haystack without nil entries `nearest` does not fail. -/
theorem nearest_total (a : Color) (hay : List (Option Color)) (hhay : ∀ c ∈ hay, c ≠ none) :
    ∃ res, nearest (some a) hay = .ok res :=
  nearestLoop_total a hay 0 0 none hhay

/-! ## Facts about the `clusters` map -/

theorem appendTo_keys (cl : Clusters) (c x : Option Color) :
    (appendTo cl c x).map Prod.fst =
      if c ∈ cl.map Prod.fst then cl.map Prod.fst else cl.map Prod.fst ++ [c] := by
  induction cl with
  | nil => simp [appendTo]
  | cons e rest ih =>
    obtain ⟨key, members⟩ := e
    by_cases hk : key = c
    · simp [appendTo, hk]
    · have hk' : ¬ c = key := fun h => hk h.symm
      simp only [appendTo, hk, if_false, List.map_cons, ih, List.mem_cons, hk', false_or]
      split <;> simp

theorem appendTo_nodup (cl : Clusters) (c x : Option Color) (h : (cl.map Prod.fst).Nodup) :
    ((appendTo cl c x).map Prod.fst).Nodup := by
  rw [appendTo_keys]
  split
  · exact h
  · rename_i hc
    rw [List.nodup_append]
    refine ⟨h, by simp, ?_⟩
    intro a ha hb
    simp only [List.mem_singleton] at hb
    subst hb
    exact absurd ha hc

theorem appendTo_members (cl : Clusters) (c x : Option Color) :
    ((appendTo cl c x).map Prod.snd).flatten.Perm (x :: (cl.map Prod.snd).flatten) := by
  induction cl with
  | nil => simp [appendTo]
  | cons e rest ih =>
    obtain ⟨key, members⟩ := e
    by_cases hk : key = c
    · simp only [appendTo, hk, if_true, List.map_cons, List.flatten_cons, List.append_assoc,
        List.singleton_append]
      exact List.perm_middle
    · simp only [appendTo, hk, if_false, List.map_cons, List.flatten_cons]
      exact (List.Perm.append_left members ih).trans List.perm_middle

theorem appendTo_nonempty (cl : Clusters) (c x : Option Color) (h : ∀ e ∈ cl, e.2 ≠ []) :
    ∀ e ∈ appendTo cl c x, e.2 ≠ [] := by
  induction cl with
  | nil => simp [appendTo]
  | cons e rest ih =>
    obtain ⟨key, members⟩ := e
    have hrest : ∀ e ∈ rest, e.2 ≠ [] := fun e he => h e (by simp [he])
    by_cases hk : key = c
    · simp only [appendTo, hk, if_true, List.mem_cons]
      rintro e (rfl | he)
      · simp
      · exact hrest e he
    · simp only [appendTo, hk, if_false, List.mem_cons]
      rintro e (rfl | he)
      · exact h (key, members) (by simp)
      · exact ih hrest e he

/-! ## Facts about the assignment loop -/

theorem assign_nodup {cs obs : List (Option Color)} {cl res : Clusters}
    (h : assign cs obs cl = .ok res) (hcl : (cl.map Prod.fst).Nodup) :
    (res.map Prod.fst).Nodup := by
  induction obs generalizing cl with
  | nil => simp only [assign, Except.ok.injEq] at h; exact h ▸ hcl
  | cons x rest ih =>
    simp only [assign] at h
    cases hn : nearest x cs with
    | error f => simp [hn] at h
    | ok c =>
      simp only [hn] at h
      exact ih h (appendTo_nodup cl c x hcl)

theorem assign_members {cs obs : List (Option Color)} {cl res : Clusters}
    (h : assign cs obs cl = .ok res) :
    (res.map Prod.snd).flatten.Perm ((cl.map Prod.snd).flatten ++ obs) := by
  induction obs generalizing cl with
  | nil => simp only [assign, Except.ok.injEq] at h; simp [h]
  | cons x rest ih =>
    simp only [assign] at h
    cases hn : nearest x cs with
    | error f => simp [hn] at h
    | ok c =>
      simp only [hn] at h
      refine (ih h).trans ?_
      refine ((appendTo_members cl c x).append_right rest).trans ?_
      simpa using (@List.perm_middle _ x ((cl.map Prod.snd).flatten) rest).symm

theorem assign_nonempty {cs obs : List (Option Color)} {cl res : Clusters}
    (h : assign cs obs cl = .ok res) (hcl : ∀ e ∈ cl, e.2 ≠ []) :
    ∀ e ∈ res, e.2 ≠ [] := by
  induction obs generalizing cl with
  | nil => simp only [assign, Except.ok.injEq] at h; exact h ▸ hcl
  | cons x rest ih =>
    simp only [assign] at h
    cases hn : nearest x cs with
    | error f => simp [hn] at h
    | ok c =>
      simp only [hn] at h
      exact ih h (appendTo_nonempty cl c x hcl)

theorem assign_keys {cs obs : List (Option Color)} {cl res : Clusters}
    (h : assign cs obs cl = .ok res) (hcs : cs ≠ []) :
    ∀ key ∈ res.map Prod.fst, key ∈ cl.map Prod.fst ∨ (key ∈ cs ∧ key ≠ none) := by
  induction obs generalizing cl with
  | nil =>
    simp only [assign, Except.ok.injEq] at h
    subst h
    exact fun key hk => Or.inl hk
  | cons x rest ih =>
    simp only [assign] at h
    cases hn : nearest x cs with
    | error f => simp [hn] at h
    | ok c =>
      simp only [hn] at h
      have hc := nearest_ok_mem hn hcs
      intro key hk
      rcases ih h key hk with h1 | h1
      · rw [appendTo_keys] at h1
        split at h1
        · exact Or.inl h1
        · rcases List.mem_append.1 h1 with h2 | h2
          · exact Or.inl h2
          · simp only [List.mem_singleton] at h2
            subst h2
            exact Or.inr ⟨hc.1, hc.2.1⟩
      · exact Or.inr h1

theorem assign_obs_some {cs obs : List (Option Color)} {cl res : Clusters}
    (h : assign cs obs cl = .ok res) (hcs : cs ≠ []) : ∀ x ∈ obs, x ≠ none := by
  induction obs generalizing cl with
  | nil => simp
  | cons x rest ih =>
    simp only [assign] at h
    cases hn : nearest x cs with
    | error f => simp [hn] at h
    | ok c =>
      simp only [hn] at h
      have hc := nearest_ok_mem hn hcs
      intro y hy
      rcases List.mem_cons.1 hy with rfl | hy
      · exact hc.2.2
      · exact ih h y hy

theorem assign_total (cs obs : List (Option Color)) (cl : Clusters)
    (hcs : ∀ c ∈ cs, c ≠ none) (hobs : ∀ x ∈ obs, x ≠ none) :
    ∃ res, assign cs obs cl = .ok res := by
  induction obs generalizing cl with
  | nil => exact ⟨cl, rfl⟩
  | cons x rest ih =>
    cases x with
    | none => exact absurd rfl (hobs none (by simp))
    | some a =>
      obtain ⟨c, hc⟩ := nearest_total a cs hcs
      simp only [assign, hc]
      exact ih _ (fun y hy => hobs y (by simp [hy]))

/-! ## Facts about `findCentroid` -/

theorem sumLoop_count {obs : List (Option Color)} {s s' : Sums}
    (h : sumLoop obs s = .ok s') (hs : s.count < W32) :
    s'.count = (s.count + obs.length) % W32 := by
  induction obs generalizing s with
  | nil =>
    simp only [sumLoop, Except.ok.injEq] at h
    subst h
    simp [Nat.mod_eq_of_lt hs]
  | cons x rest ih =>
    cases x with
    | none => simp [sumLoop] at h
    | some a =>
      simp only [sumLoop] at h
      have hlt : add32 s.count 1 < W32 := Nat.mod_lt _ (by decide)
      rw [ih h hlt]
      simp only [add32, List.length_cons, Nat.mod_add_mod]
      congr 1
      omega

theorem sumLoop_ok_some {obs : List (Option Color)} {s s' : Sums}
    (h : sumLoop obs s = .ok s') : ∀ x ∈ obs, x ≠ none := by
  induction obs generalizing s with
  | nil => simp
  | cons x rest ih =>
    cases x with
    | none => simp [sumLoop] at h
    | some a =>
      simp only [sumLoop] at h
      intro y hy
      rcases List.mem_cons.1 hy with rfl | hy
      · simp
      · exact ih h y hy

theorem sumLoop_total (obs : List (Option Color)) (s : Sums) (hobs : ∀ x ∈ obs, x ≠ none) :
    ∃ s', sumLoop obs s = .ok s' := by
  induction obs generalizing s with
  | nil => exact ⟨s, rfl⟩
  | cons x rest ih =>
    cases x with
    | none => exact absurd rfl (hobs none (by simp))
    | some a =>
      simp only [sumLoop]
      exact ih _ (fun y hy => hobs y (by simp [hy]))

/-- A successful `findCentroid` returns a member of the cluster, which is not
nil; the cluster has no nil member and its length is not a multiple of `2^32`. -/
theorem findCentroid_ok {obs : List (Option Color)} {res : Option Color}
    (h : findCentroid obs = .ok res) :
    res ∈ obs ∧ res ≠ none ∧ (∀ x ∈ obs, x ≠ none) ∧ obs.length % W32 ≠ 0 := by
  unfold findCentroid at h
  cases hs : sumLoop obs ⟨0, 0, 0, 0, 0⟩ with
  | error f => simp [hs] at h
  | ok s =>
    simp only [hs] at h
    have hcount := sumLoop_count hs (by decide)
    simp only [Nat.zero_add] at hcount
    split at h
    · simp at h
    · rename_i hc
      have hne : obs ≠ [] := by
        rintro rfl
        simp at hcount
        exact hc hcount
      have hm := nearest_ok_mem h hne
      exact ⟨hm.1, hm.2.1, sumLoop_ok_some hs, by rw [← hcount]; exact hc⟩

/-- On a cluster without nil members whose length is not a multiple of `2^32`
`findCentroid` does not fail. -/
theorem findCentroid_total (obs : List (Option Color)) (hobs : ∀ x ∈ obs, x ≠ none)
    (hlen : obs.length % W32 ≠ 0) : ∃ res, findCentroid obs = .ok res := by
  obtain ⟨s, hs⟩ := sumLoop_total obs ⟨0, 0, 0, 0, 0⟩ hobs
  have hcount := sumLoop_count hs (by decide)
  simp only [Nat.zero_add] at hcount
  unfold findCentroid
  simp only [hs]
  rw [if_neg (by rw [hcount]; exact hlen)]
  exact nearest_total _ obs hobs

/-- The counter `count` of `findCentroid` is a `uint32`: on a cluster of `2^32`
members (or a multiple) it is back at zero and the division panics. -/
theorem findCentroid_divideByZero (obs : List (Option Color)) (hobs : ∀ x ∈ obs, x ≠ none)
    (hlen : obs.length % W32 = 0) : findCentroid obs = .error .divideByZero := by
  obtain ⟨s, hs⟩ := sumLoop_total obs ⟨0, 0, 0, 0, 0⟩ hobs
  have hcount := sumLoop_count hs (by decide)
  simp only [Nat.zero_add] at hcount
  unfold findCentroid
  simp only [hs]
  rw [if_pos (by rw [hcount]; exact hlen)]

/-! ## Facts about the iteration order of the map -/

theorem insertAt_perm {α : Type} (i : Nat) (x : α) (l : List α) :
    (insertAt i x l).Perm (x :: l) := by
  unfold insertAt
  refine List.perm_middle.trans ?_
  rw [List.take_append_drop]

theorem mapOrder_perm {α : Type} (code : Nat) (l : List α) : (mapOrder code l).Perm l := by
  induction l generalizing code with
  | nil => simp [mapOrder]
  | cons x xs ih =>
    simp only [mapOrder]
    exact (insertAt_perm _ _ _).trans ((ih _).cons x)

theorem mapOrder_singleton {α : Type} (code : Nat) (x : α) : mapOrder code [x] = [x] := by
  simp [mapOrder, insertAt]

/-- Every order of the entries is selected by some code: `mapOrder` ranges over
all iteration orders of the map. -/
theorem mapOrder_surjective {α : Type} (l l2 : List α) (h : l2.Perm l) :
    ∃ code, mapOrder code l = l2 := by
  induction l generalizing l2 with
  | nil => exact ⟨0, by rw [List.Perm.eq_nil h]; rfl⟩
  | cons x xs ih =>
    have hx : x ∈ l2 := h.mem_iff.2 (by simp)
    obtain ⟨a, b, rfl⟩ := List.append_of_mem hx
    have hab : (a ++ b).Perm xs := (List.perm_middle.symm.trans h).cons_inv
    obtain ⟨c, hc⟩ := ih (a ++ b) hab
    have hlen : a.length + b.length = xs.length := by
      rw [← List.length_append]
      exact hab.length_eq
    refine ⟨a.length + (xs.length + 1) * c, ?_⟩
    have h1 : (a.length + (xs.length + 1) * c) % (xs.length + 1) = a.length := by
      rw [Nat.add_mul_mod_self_left]
      exact Nat.mod_eq_of_lt (by omega)
    have h2 : (a.length + (xs.length + 1) * c) / (xs.length + 1) = c := by
      rw [Nat.add_mul_div_left _ _ (by omega), Nat.div_eq_of_lt (by omega), Nat.zero_add]
    simp only [mapOrder, h1, h2, hc, insertAt, List.take_left, List.drop_left]

/-! ## Facts about the update loop -/

theorem update_length {es : Clusters} {st st' : UpdateState} (h : update es st = .ok st')
    (hj : st.j ≤ st.newCentroids.length) :
    st'.newCentroids.length = st.newCentroids.length ∧ st'.j = st.j + es.length ∧
      st.j + es.length ≤ st.newCentroids.length := by
  induction es generalizing st with
  | nil =>
    simp only [update, Except.ok.injEq] at h
    subst h
    simpa using hj
  | cons e rest ih =>
    obtain ⟨centroid, cluster⟩ := e
    simp only [update] at h
    cases hf : findCentroid cluster with
    | error f => simp [hf] at h
    | ok nc =>
      simp only [hf] at h
      split at h
      · rename_i hlt
        have := ih h (by simpa using hlt)
        simp only [List.length_set] at this
        simp only [List.length_cons]
        omega
      · simp at h

theorem update_mem {es : Clusters} {st st' : UpdateState} (h : update es st = .ok st') :
    ∀ c ∈ st'.newCentroids, c ∈ st.newCentroids ∨ ∃ e ∈ es, c ∈ e.2 := by
  induction es generalizing st with
  | nil =>
    simp only [update, Except.ok.injEq] at h
    subst h
    exact fun c hc => Or.inl hc
  | cons e rest ih =>
    obtain ⟨centroid, cluster⟩ := e
    simp only [update] at h
    cases hf : findCentroid cluster with
    | error f => simp [hf] at h
    | ok nc =>
      simp only [hf] at h
      split at h
      · intro c hc
        rcases ih h c hc with h1 | ⟨e, he, hce⟩
        · rcases List.mem_or_eq_of_mem_set h1 with h2 | h2
          · exact Or.inl h2
          · subst h2
            exact Or.inr ⟨(centroid, cluster), by simp, (findCentroid_ok hf).1⟩
        · exact Or.inr ⟨e, by simp [he], hce⟩
      · simp at h

/-- The convergence flag after the update loop: it is still set exactly when
every visited cluster has its own key as new centroid. -/
theorem update_converged {es : Clusters} {st st' : UpdateState} (h : update es st = .ok st') :
    st'.converged = true ↔
      st.converged = true ∧ ∀ e ∈ es, findCentroid e.2 = .ok e.1 := by
  induction es generalizing st with
  | nil =>
    simp only [update, Except.ok.injEq] at h
    subst h
    simp
  | cons e rest ih =>
    obtain ⟨centroid, cluster⟩ := e
    simp only [update] at h
    cases hf : findCentroid cluster with
    | error f => simp [hf] at h
    | ok nc =>
      simp only [hf] at h
      split at h
      · rw [ih h]
        by_cases hnc : nc = centroid
        · subst hnc
          simp [hf]
        · simp [hf, hnc]
      · simp at h

/-! ## The invariant of the main loop -/

theorem update_preserves {k code : Nat} {obs cs : List (Option Color)} {clusters : Clusters}
    {st : UpdateState} (ha : assign cs obs [] = .ok clusters)
    (hu : update (mapOrder code clusters) ⟨true, List.replicate k none, 0⟩ = .ok st) :
    CentroidsOk k obs st.newCentroids ∧ clusters.length ≤ k := by
  have hl := update_length hu (Nat.zero_le _)
  simp only [List.length_replicate, Nat.zero_add, (mapOrder_perm code clusters).length_eq] at hl
  refine ⟨⟨hl.1, ?_⟩, hl.2.2⟩
  intro c hc hne
  rcases update_mem hu c hc with h1 | ⟨e, he, hce⟩
  · exact absurd (List.eq_of_mem_replicate h1) hne
  · have he' : e ∈ clusters := (mapOrder_perm code clusters).mem_iff.1 he
    have hmem : c ∈ (clusters.map Prod.snd).flatten :=
      List.mem_flatten.2 ⟨e.2, List.mem_map.2 ⟨e, he', rfl⟩, hce⟩
    simpa using (assign_members ha).mem_iff.1 hmem

/-- When the main loop is left, either no iteration was executed or the
clusters are those assigned in the last executed iteration, from a centroid list
that satisfies the invariant, and they are at most `k`. -/
theorem loop_final {ord : Nat → Nat} {k : Nat} {obs : List (Option Color)} {n i : Nat}
    {cs : List (Option Color)} {cl : Clusters} {st : LoopState}
    (h : loop ord k obs n i cs cl = .ok st) (hcs : CentroidsOk k obs cs) :
    (n = 0 ∧ st.clusters = cl) ∨
      ∃ cs', CentroidsOk k obs cs' ∧ assign cs' obs [] = .ok st.clusters ∧
        st.clusters.length ≤ k := by
  induction n generalizing i cs cl with
  | zero =>
    simp only [loop, Except.ok.injEq] at h
    subst h
    exact Or.inl ⟨rfl, rfl⟩
  | succ n ih =>
    right
    simp only [loop] at h
    cases ha : assign cs obs [] with
    | error f => simp [ha] at h
    | ok clusters =>
      simp only [ha] at h
      cases hu : update (mapOrder (ord i) clusters) ⟨true, List.replicate k none, 0⟩ with
      | error f => simp [hu] at h
      | ok u =>
        simp only [hu] at h
        have hp := update_preserves ha hu
        split at h
        · simp only [Except.ok.injEq] at h
          subst h
          exact ⟨cs, hcs, ha, hp.2⟩
        · rcases ih h hp.1 with ⟨_, hcl⟩ | hex
          · rw [hcl]
            exact ⟨cs, hcs, ha, hp.2⟩
          · exact hex


/-! ## Facts about the initial draws and about `Cluster` as a whole -/

theorem drawCentroids_ok {rnd : Nat → Nat} {obs cs : List (Option Color)} {n i : Nat}
    (h : drawCentroids rnd obs n i = .ok cs) : cs.length = n ∧ ∀ c ∈ cs, c ∈ obs := by
  induction n generalizing i cs with
  | zero =>
    simp only [drawCentroids, Except.ok.injEq] at h
    subst h
    simp
  | succ n ih =>
    simp only [drawCentroids] at h
    cases hi : intn rnd i obs.length with
    | error f => simp [hi] at h
    | ok idx =>
      simp only [hi] at h
      cases hx : obs[idx]? with
      | none => simp [hx] at h
      | some x =>
        simp only [hx] at h
        cases hr : drawCentroids rnd obs n (i + 1) with
        | error f => simp [hr] at h
        | ok rest =>
          simp only [hr, Except.ok.injEq] at h
          subst h
          have := ih hr
          refine ⟨by simp [this.1], ?_⟩
          intro c hc
          rcases List.mem_cons.1 hc with rfl | hc
          · exact List.getElem?_mem hx
          · exact this.2 c hc

/-- The initial draws on a non-empty observation list: the `j`-th centroid is the
observation at index `rnd j % N`. -/
theorem drawCentroids_eq (rnd : Nat → Nat) (obs : List (Option Color)) (n i : Nat)
    (hobs : obs ≠ []) :
    drawCentroids rnd obs n i =
      .ok ((List.range' i n).map fun j => (obs[rnd j % obs.length]?).getD none) := by
  have hpos : 0 < obs.length := List.length_pos.2 hobs
  induction n generalizing i with
  | zero => simp [drawCentroids]
  | succ n ih =>
    have hlt : rnd i % obs.length < obs.length := Nat.mod_lt _ hpos
    simp only [drawCentroids, intn, Nat.pos_iff_ne_zero.1 hpos, if_false, ih (i + 1),
      List.getElem?_eq_getElem hlt, List.range'_succ, List.map_cons, Option.getD_some]

/-- What a returned weight map consists of: the initial draws and the main loop
went through and the map is built from the clusters the loop left. -/
theorem Cluster_ok {rnd ord : Nat → Nat} {k maxIterations : Int}
    {observations : List (Option Color)} {m : Weights}
    (h : Cluster rnd ord k observations maxIterations = .ok (.ok m)) :
    0 ≤ k ∧ k ≤ observations.length ∧
      ∃ cs st, drawCentroids rnd observations k.toNat 0 = .ok cs ∧
        loop ord k.toNat observations maxIterations.toNat 0 cs [] = .ok st ∧
        m = clusterWeights st.clusters observations.length := by
  unfold Cluster at h
  split at h
  · simp at h
  · rename_i h1
    split at h
    · simp at h
    · rename_i h2
      refine ⟨by omega, by omega, ?_⟩
      cases hd : drawCentroids rnd observations k.toNat 0 with
      | error f => simp [hd] at h
      | ok cs =>
        simp only [hd] at h
        cases hl : loop ord k.toNat observations maxIterations.toNat 0 cs [] with
        | error f => simp [hl] at h
        | ok st =>
          simp only [hl, Except.ok.injEq] at h
          exact ⟨cs, st, rfl, hl, h.symm⟩

/-- The clusters behind a returned weight map when at least one iteration ran:
they were assigned from a centroid list of `k` entries, all nil or observed. -/
theorem Cluster_ok_clusters {rnd ord : Nat → Nat} {k maxIterations : Int}
    {observations : List (Option Color)} {m : Weights}
    (h : Cluster rnd ord k observations maxIterations = .ok (.ok m)) :
    (maxIterations ≤ 0 ∧ m = []) ∨
      ∃ cs clusters, CentroidsOk k.toNat observations cs ∧
        assign cs observations [] = .ok clusters ∧ clusters.length ≤ k.toNat ∧
        m = clusterWeights clusters observations.length := by
  obtain ⟨_, _, cs, st, hd, hl, hm⟩ := Cluster_ok h
  have hcs : CentroidsOk k.toNat observations cs :=
    ⟨(drawCentroids_ok hd).1, fun c hc _ => (drawCentroids_ok hd).2 c hc⟩
  rcases loop_final hl hcs with ⟨h0, hcl⟩ | ⟨cs', hcs', ha, hlen⟩
  · left
    refine ⟨by omega, ?_⟩
    rw [hm, hcl]
    rfl
  · exact Or.inr ⟨cs', st.clusters, hcs', ha, hlen, hm⟩

theorem sum_map_div (l : Clusters) (n : ℚ) :
    ((l.map fun e => ((e.2.length : ℚ) / n))).sum =
      (((l.map fun e => e.2.length).sum : Nat) : ℚ) / n := by
  induction l with
  | nil => simp
  | cons e rest ih => simp [ih, add_div]

theorem assign_sizes {cs obs : List (Option Color)} {clusters : Clusters}
    (h : assign cs obs [] = .ok clusters) :
    (clusters.map fun e => e.2.length).sum = obs.length := by
  have hp := (assign_members h).length_eq
  simp only [List.map_nil, List.flatten_nil, List.nil_append] at hp
  rw [← hp, List.length_flatten, List.map_map]
  rfl

/-- Claim C1: With fewer observations than `k`, `Cluster` returns its error and no
weight map, whatever the random generator would draw and whatever the map order
would be: the test precedes the draws and the loop. -/
theorem Cluster_too_few (rnd ord : Nat → Nat) (k maxIterations : Int)
    (observations : List (Option Color)) (h : (observations.length : Int) < k) :
    Cluster rnd ord k observations maxIterations = .ok (.error ⟨observations.length, k⟩) := by
  unfold Cluster
  rw [if_pos h]

theorem Cluster_too_few_witness :
    (([grey 0, grey 9] : List (Option Color)).length : Int) < 3 ∧
      Cluster (fun _ => 0) (fun _ => 0) 3 [grey 0, grey 9] 10 = .ok (.error ⟨2, 3⟩) :=
  ⟨by decide, Cluster_too_few (fun _ => 0) (fun _ => 0) 3 10 [grey 0, grey 9] (by decide)⟩

/-- Claim C3: On a valid input on which `Cluster` returns a map, the map is built
from the clusters left by the last executed iteration of the main loop: each
weight is the size of its cluster over `N`, the keys are distinct, the clusters
together hold every observation exactly once, their sizes add up to `N` and the
weights add up to one. -/
theorem Cluster_weights_sum (rnd ord : Nat → Nat) (k maxIterations : Int)
    (observations : List (Option Color)) (m : Weights)
    (hk : 1 ≤ k) (hmax : 1 ≤ maxIterations) (hN : k ≤ observations.length)
    (h : Cluster rnd ord k observations maxIterations = .ok (.ok m)) :
    ∃ (initial : List (Option Color)) (st : LoopState),
      drawCentroids rnd observations k.toNat 0 = .ok initial ∧
      loop ord k.toNat observations maxIterations.toNat 0 initial [] = .ok st ∧
      m = st.clusters.map (fun e => (e.1, (e.2.length : ℚ) / (observations.length : ℚ))) ∧
      (st.clusters.map Prod.fst).Nodup ∧
      (st.clusters.map Prod.snd).flatten.Perm observations ∧
      (st.clusters.map fun e => e.2.length).sum = observations.length ∧
      (m.map Prod.snd).sum = 1 := by
  obtain ⟨_, _, cs, st, hd, hl, hm⟩ := Cluster_ok h
  have hcs : CentroidsOk k.toNat observations cs :=
    ⟨(drawCentroids_ok hd).1, fun c hc _ => (drawCentroids_ok hd).2 c hc⟩
  rcases loop_final hl hcs with ⟨h0, _⟩ | ⟨cs2, _, ha, _⟩
  · omega
  · refine ⟨cs, st, hd, hl, hm, assign_nodup ha (by simp), ?_, assign_sizes ha, ?_⟩
    · simpa using assign_members ha
    · have hpos : (0 : ℚ) < (observations.length : ℚ) := by
        have : (0 : Int) < observations.length := by omega
        exact_mod_cast this
      rw [hm, clusterWeights, List.map_map]
      have := sum_map_div st.clusters (observations.length : ℚ)
      simp only [Function.comp_def]
      rw [this, assign_sizes ha]
      exact div_self (ne_of_gt hpos)

theorem Cluster_weights_sum_witness :
    Cluster (fun _ => 0) (fun _ => 0) 1 [grey 0, grey 9] 1 =
        .ok (.ok (clusterWeights [(grey 0, [grey 0, grey 9])] 2)) ∧
      ∃ (initial : List (Option Color)) (st : LoopState),
        drawCentroids (fun _ => 0) [grey 0, grey 9] (1 : Int).toNat 0 = .ok initial ∧
        loop (fun _ => 0) (1 : Int).toNat [grey 0, grey 9] (1 : Int).toNat 0 initial [] =
          .ok st ∧
        clusterWeights [(grey 0, [grey 0, grey 9])] 2 =
          st.clusters.map (fun e => (e.1, (e.2.length : ℚ) /
            (([grey 0, grey 9] : List (Option Color)).length : ℚ))) ∧
        (st.clusters.map Prod.fst).Nodup ∧
        (st.clusters.map Prod.snd).flatten.Perm [grey 0, grey 9] ∧
        (st.clusters.map fun e => e.2.length).sum =
          ([grey 0, grey 9] : List (Option Color)).length ∧
        ((clusterWeights [(grey 0, [grey 0, grey 9])] 2).map Prod.snd).sum = 1 :=
  ⟨rfl, Cluster_weights_sum (fun _ => 0) (fun _ => 0) 1 1 [grey 0, grey 9] _
    (by decide) (by decide) (by decide) rfl⟩


/-- Claim C4: On a valid input on which `Cluster` returns a map, the keys of the
map are distinct, every weight lies in `(0, 1]`, and the map has at least one
and at most `k` entries. -/
theorem Cluster_weight_bounds (rnd ord : Nat → Nat) (k maxIterations : Int)
    (observations : List (Option Color)) (m : Weights)
    (hk : 1 ≤ k) (hmax : 1 ≤ maxIterations) (hN : k ≤ observations.length)
    (h : Cluster rnd ord k observations maxIterations = .ok (.ok m)) :
    (m.map Prod.fst).Nodup ∧ (∀ e ∈ m, 0 < e.2 ∧ e.2 ≤ 1) ∧
      1 ≤ m.length ∧ (m.length : Int) ≤ k := by
  rcases Cluster_ok_clusters h with ⟨h0, _⟩ | ⟨cs, clusters, _, ha, hlen, hm⟩
  · omega
  · have hsum := assign_sizes ha
    have hNpos : 0 < observations.length := by omega
    have hpos : (0 : ℚ) < (observations.length : ℚ) := by exact_mod_cast hNpos
    subst hm
    refine ⟨?_, ?_, ?_, ?_⟩
    · simpa [clusterWeights, Function.comp_def] using assign_nodup ha (by simp)
    · intro e he
      simp only [clusterWeights, List.mem_map] at he
      obtain ⟨c, hc, rfl⟩ := he
      have hne : c.2 ≠ [] := assign_nonempty ha (by simp) c hc
      have h1 : 0 < c.2.length := List.length_pos.2 hne
      have h2 : c.2.length ≤ observations.length := by
        rw [← hsum]
        exact List.single_le_sum (fun _ _ => Nat.zero_le _) _
          (List.mem_map.2 ⟨c, hc, rfl⟩)
      have h1' : (0 : ℚ) < (c.2.length : ℚ) := by exact_mod_cast h1
      have h2' : (c.2.length : ℚ) ≤ (observations.length : ℚ) := by exact_mod_cast h2
      exact ⟨div_pos h1' hpos, (div_le_one hpos).2 h2'⟩
    · simp only [clusterWeights, List.length_map]
      cases clusters with
      | nil => simp at hsum; omega
      | cons e rest => simp
    · simp only [clusterWeights, List.length_map]
      omega

theorem Cluster_weight_bounds_witness :
    Cluster (fun i => i) (fun _ => 0) 2 [grey 0, grey 9, grey 9] 4 =
        .ok (.ok (clusterWeights [(grey 0, [grey 0]), (grey 9, [grey 9, grey 9])] 3)) ∧
      ((clusterWeights [(grey 0, [grey 0]), (grey 9, [grey 9, grey 9])] 3).map Prod.fst).Nodup ∧
      (∀ e ∈ clusterWeights [(grey 0, [grey 0]), (grey 9, [grey 9, grey 9])] 3,
        0 < e.2 ∧ e.2 ≤ 1) ∧
      1 ≤ (clusterWeights [(grey 0, [grey 0]), (grey 9, [grey 9, grey 9])] 3).length ∧
      ((clusterWeights [(grey 0, [grey 0]), (grey 9, [grey 9, grey 9])] 3).length : Int) ≤ 2 :=
  ⟨rfl, Cluster_weight_bounds (fun i => i) (fun _ => 0) 2 4 [grey 0, grey 9, grey 9] _
    (by decide) (by decide) (by decide) rfl⟩

/-- Claim C5: Every key of a map returned by `Cluster` is an element of the
observation list and is not nil. -/
theorem Cluster_keys_observed (rnd ord : Nat → Nat) (k maxIterations : Int)
    (observations : List (Option Color)) (m : Weights)
    (h : Cluster rnd ord k observations maxIterations = .ok (.ok m)) :
    ∀ e ∈ m, e.1 ∈ observations ∧ e.1 ≠ none := by
  rcases Cluster_ok_clusters h with ⟨_, h0⟩ | ⟨cs, clusters, hcs, ha, hlen, hm⟩
  · simp [h0]
  · subst hm
    intro e he
    simp only [clusterWeights, List.mem_map] at he
    obtain ⟨c, hc, rfl⟩ := he
    by_cases hnil : cs = []
    · have hk0 : k.toNat = 0 := by rw [← hcs.1, hnil]; rfl
      rw [hk0] at hlen
      have : clusters = [] := List.length_eq_zero.1 (Nat.le_zero.1 hlen)
      simp [this] at hc
    · rcases assign_keys ha hnil c.1 (List.mem_map.2 ⟨c, hc, rfl⟩) with h1 | ⟨h1, h2⟩
      · simp at h1
      · exact ⟨hcs.2 c.1 h1 h2, h2⟩

theorem Cluster_keys_observed_witness :
    Cluster (fun _ => 1) (fun _ => 0) 1 [grey 0, grey 9, grey 5] 2 =
        .ok (.ok (clusterWeights [(grey 5, [grey 0, grey 9, grey 5])] 3)) ∧
      ∀ e ∈ clusterWeights [(grey 5, [grey 0, grey 9, grey 5])] 3,
        e.1 ∈ [grey 0, grey 9, grey 5] ∧ e.1 ≠ none :=
  ⟨rfl, Cluster_keys_observed (fun _ => 1) (fun _ => 0) 1 2 [grey 0, grey 9, grey 5] _ rfl⟩


theorem loop_succ (ord : Nat → Nat) (k : Nat) (obs : List (Option Color)) (n i : Nat)
    (cs : List (Option Color)) (cl : Clusters) :
    loop ord k obs (n + 1) i cs cl =
      match assign cs obs [] with
      | .error f => .error f
      | .ok clusters =>
        match update (mapOrder (ord i) clusters) ⟨true, List.replicate k none, 0⟩ with
        | .error f => .error f
        | .ok st =>
          if st.converged then .ok ⟨clusters, st.newCentroids, i + 1, true⟩
          else loop ord k obs n (i + 1) st.newCentroids clusters := rfl

/-- Claim C2: A run on a valid input that fails: `k = 2`, `maxIterations = 2`, three
observations, both initial draws hitting the first one.  The first iteration
yields a single cluster whose new centroid differs from its key, so
`newCentroids` is left with a nil entry and the second iteration calls `RGBA()`
on it; this is so for every iteration order of the map. -/
theorem Cluster_nil_centroid (ord : Nat → Nat) :
    Cluster (fun _ => 0) ord 2 [grey 0, grey 300, grey 300] 2 = .error .nilDereference := by
  have h0 : Cluster (fun _ => 0) ord 2 [grey 0, grey 300, grey 300] 2 =
      match loop ord 2 [grey 0, grey 300, grey 300] 2 0 [grey 0, grey 0] [] with
      | .error f => .error f
      | .ok st => .ok (.ok (clusterWeights st.clusters 3)) := rfl
  have h1 : assign [grey 0, grey 0] [grey 0, grey 300, grey 300] [] =
      .ok [(grey 0, [grey 0, grey 300, grey 300])] := rfl
  have h2 : update [(grey 0, [grey 0, grey 300, grey 300])] ⟨true, List.replicate 2 none, 0⟩ =
      .ok ⟨false, [grey 300, none], 1⟩ := rfl
  have h3 : assign [grey 300, none] [grey 0, grey 300, grey 300] [] =
      .error .nilDereference := rfl
  rw [h0, loop_succ, h1]
  simp only [mapOrder_singleton, h2]
  rw [if_neg (by decide), loop_succ, h3]

/-! ## Runs with a single centroid -/

theorem nearest_single (a c : Color) : nearest (some a) [some c] = .ok (some c) := by
  simp [nearest, nearestLoop, distance]

theorem assign_single_acc (c : Color) (obs acc : List (Option Color))
    (hobs : ∀ x ∈ obs, x ≠ none) :
    assign [some c] obs [(some c, acc)] = .ok [(some c, acc ++ obs)] := by
  induction obs generalizing acc with
  | nil => simp [assign]
  | cons x rest ih =>
    cases x with
    | none => exact absurd rfl (hobs none (by simp))
    | some a =>
      simp only [assign, nearest_single, appendTo, if_true]
      rw [ih _ (fun y hy => hobs y (by simp [hy]))]
      simp

/-- With a single centroid every observation joins its cluster. -/
theorem assign_single (c : Color) (obs : List (Option Color)) (hne : obs ≠ [])
    (hobs : ∀ x ∈ obs, x ≠ none) :
    assign [some c] obs [] = .ok [(some c, obs)] := by
  cases obs with
  | nil => exact absurd rfl hne
  | cons x rest =>
    cases x with
    | none => exact absurd rfl (hobs none (by simp))
    | some a =>
      simp only [assign, nearest_single, appendTo]
      rw [assign_single_acc c rest _ (fun y hy => hobs y (by simp [hy]))]
      simp

/-- One iteration of the main loop with `k = 1`. -/
theorem loop_single (ord : Nat → Nat) (c : Color) (obs : List (Option Color)) (n i : Nat)
    (cl : Clusters) (m : Option Color) (hne : obs ≠ []) (hobs : ∀ x ∈ obs, x ≠ none)
    (hm : findCentroid obs = .ok m) :
    loop ord 1 obs (n + 1) i [some c] cl =
      if m = some c then .ok ⟨[(some c, obs)], [m], i + 1, true⟩
      else loop ord 1 obs n (i + 1) [m] [(some c, obs)] := by
  rw [loop_succ, assign_single c obs hne hobs]
  simp only [mapOrder_singleton, update, hm, List.replicate, List.length_cons, List.length_nil,
    Nat.zero_add, Nat.lt_one_iff, if_true, List.set_cons_zero, ne_eq, ite_not]
  by_cases hmc : m = some c
  · simp [hmc]
  · simp [hmc]

/-- With `k = 1`, a non-empty observation list without nil entries whose length
is not a multiple of `2^32`, and `maxIterations ≥ 1`, `Cluster` returns a map
with exactly one entry, an observation, of weight one. -/
theorem Cluster_k_one (rnd ord : Nat → Nat) (maxIterations : Int)
    (observations : List (Option Color)) (hne : observations ≠ [])
    (hobs : ∀ x ∈ observations, x ≠ none) (hlen : observations.length % W32 ≠ 0)
    (hmax : 1 ≤ maxIterations) :
    ∃ c ∈ observations, Cluster rnd ord 1 observations maxIterations = .ok (.ok [(c, 1)]) := by
  have hpos : 0 < observations.length := List.length_pos.2 hne
  have hq : (observations.length : ℚ) / (observations.length : ℚ) = 1 :=
    div_self (by exact_mod_cast (Nat.pos_iff_ne_zero.1 hpos))
  obtain ⟨m, hm⟩ := findCentroid_total observations hobs hlen
  have hmo := findCentroid_ok hm
  obtain ⟨mc, rfl⟩ := Option.ne_none_iff_exists'.1 hmo.2.1
  obtain ⟨n, hn⟩ : ∃ n, maxIterations.toNat = n + 1 := ⟨maxIterations.toNat - 1, by omega⟩
  have hlt : rnd 0 % observations.length < observations.length := Nat.mod_lt _ hpos
  have hc0 : observations[rnd 0 % observations.length] ∈ observations := List.getElem_mem _
  obtain ⟨c0, hc0e⟩ := Option.ne_none_iff_exists'.1 (hobs _ hc0)
  have hN : ¬ (observations.length : Int) < 1 := by omega
  unfold Cluster
  rw [if_neg hN, if_neg (by decide)]
  simp only [Int.toNat_one, drawCentroids_eq rnd observations 1 0 hne, hn, List.range'_one,
    List.map_cons, List.map_nil, List.getElem?_eq_getElem hlt, Option.getD_some, hc0e]
  rw [loop_single ord c0 observations n 0 [] (some mc) hne hobs hm]
  by_cases h1 : some mc = some c0
  · refine ⟨some c0, hc0e ▸ hc0, ?_⟩
    simp [h1, clusterWeights, hq]
  · rw [if_neg h1]
    cases n with
    | zero =>
      refine ⟨some c0, hc0e ▸ hc0, ?_⟩
      simp [loop, clusterWeights, hq]
    | succ n =>
      refine ⟨some mc, hmo.1, ?_⟩
      rw [loop_single ord mc observations n 1 _ (some mc) hne hobs hm]
      simp [clusterWeights, hq]

/-- With `k = 1` and a non-empty observation list without nil entries whose
length is a multiple of `2^32`, `Cluster` fails in the first iteration: the
`uint32` counter of `findCentroid` has wrapped around to zero. -/
theorem Cluster_k_one_wraps (rnd ord : Nat → Nat) (maxIterations : Int)
    (observations : List (Option Color)) (hne : observations ≠ [])
    (hobs : ∀ x ∈ observations, x ≠ none) (hlen : observations.length % W32 = 0)
    (hmax : 1 ≤ maxIterations) :
    Cluster rnd ord 1 observations maxIterations = .error .divideByZero := by
  have hpos : 0 < observations.length := List.length_pos.2 hne
  have hm := findCentroid_divideByZero observations hobs hlen
  obtain ⟨n, hn⟩ : ∃ n, maxIterations.toNat = n + 1 := ⟨maxIterations.toNat - 1, by omega⟩
  have hlt : rnd 0 % observations.length < observations.length := Nat.mod_lt _ hpos
  have hc0 : observations[rnd 0 % observations.length] ∈ observations := List.getElem_mem _
  obtain ⟨c0, hc0e⟩ := Option.ne_none_iff_exists'.1 (hobs _ hc0)
  have hN : ¬ (observations.length : Int) < 1 := by omega
  unfold Cluster
  rw [if_neg hN, if_neg (by decide)]
  simp only [Int.toNat_one, drawCentroids_eq rnd observations 1 0 hne, hn, List.range'_one,
    List.map_cons, List.map_nil, List.getElem?_eq_getElem hlt, Option.getD_some, hc0e]
  rw [loop_succ, assign_single c0 observations hne hobs]
  simp only [mapOrder_singleton, update, hm]

theorem Cluster_k_one_replicate_wraps (rnd ord : Nat → Nat) (c : Color) (n : Nat)
    (hn : n ≠ 0) (hmod : n % W32 = 0) :
    Cluster rnd ord 1 (List.replicate n (some c)) 1 = .error .divideByZero :=
  Cluster_k_one_wraps rnd ord 1 (List.replicate n (some c))
    (fun h => hn ((List.replicate_eq_nil_iff _).1 h))
    (fun x hx => by rw [List.eq_of_mem_replicate hx]; exact Option.some_ne_none c)
    (by rw [List.length_replicate]; exact hmod) (by decide)

/-- Claim C6: A run with `k = 1` that fails: on `2^32` copies of one colour the
counter `count` of `findCentroid`, a `uint32`, is zero after the summation loop
and `r / count` panics. -/
theorem Cluster_k_one_count_overflow :
    Cluster (fun _ => 0) (fun _ => 0) 1 (List.replicate 4294967296 (some ⟨7, 7, 7, 65535, 0⟩)) 1 =
      .error .divideByZero :=
  Cluster_k_one_replicate_wraps _ _ _ 4294967296 (by decide) (by decide)

theorem Cluster_k_one_five_copies (rnd ord : Nat → Nat) (c : Color) :
    Cluster rnd ord 1 (List.replicate 5 (some c)) 1 = .ok (.ok [(some c, 1)]) := by
  obtain ⟨x, hx, h⟩ := Cluster_k_one rnd ord 1 (List.replicate 5 (some c)) (by simp)
    (fun x hx => by rw [List.eq_of_mem_replicate hx]; simp) (by simp [W32]) (by decide)
  rw [List.eq_of_mem_replicate hx] at h
  exact h

/-! ## Arithmetic of `distance` -/

theorem sq_mod_four (x : Nat) : x * x % 4 = x % 2 := by
  rw [Nat.mul_mod]
  have h : x % 4 < 4 := Nat.mod_lt _ (by decide)
  have h2 : x % 2 = (x % 4) % 2 := by omega
  rw [h2]
  generalize x % 4 = r at h
  interval_cases r <;> rfl

theorem even_of_four_dvd_squares {x y z : Nat} (h : 4 ∣ x * x + y * y + z * z) :
    x % 2 = 0 ∧ y % 2 = 0 ∧ z % 2 = 0 := by
  have hx := sq_mod_four x
  have hy := sq_mod_four y
  have hz := sq_mod_four z
  have h4 : (x * x + y * y + z * z) % 4 = 0 := Nat.mod_eq_zero_of_dvd h
  omega

/-- Three numbers below `2^j` whose squares add up to a multiple of `4^j` are
all zero. -/
theorem squares_zero_of_dvd (j : Nat) : ∀ x y z : Nat, x < 2 ^ j → y < 2 ^ j → z < 2 ^ j →
    4 ^ j ∣ x * x + y * y + z * z → x = 0 ∧ y = 0 ∧ z = 0 := by
  induction j with
  | zero =>
    intro x y z hx hy hz _
    simp at hx hy hz
    exact ⟨hx, hy, hz⟩
  | succ j ih =>
    intro x y z hx hy hz hd
    have h4 : 4 ∣ x * x + y * y + z * z := Dvd.dvd.trans ⟨4 ^ j, by ring⟩ hd
    obtain ⟨ex, ey, ez⟩ := even_of_four_dvd_squares h4
    obtain ⟨a, rfl⟩ : ∃ a, x = 2 * a := ⟨x / 2, by omega⟩
    obtain ⟨b, rfl⟩ : ∃ b, y = 2 * b := ⟨y / 2, by omega⟩
    obtain ⟨c, rfl⟩ : ∃ c, z = 2 * c := ⟨z / 2, by omega⟩
    have hpow : 2 ^ (j + 1) = 2 * 2 ^ j := by ring
    rw [hpow] at hx hy hz
    have hd1 : 4 * 4 ^ j ∣ 4 * (a * a + b * b + c * c) := by
      have : 4 * (a * a + b * b + c * c) = 2 * a * (2 * a) + 2 * b * (2 * b) + 2 * c * (2 * c) := by
        ring
      rw [this, ← pow_succ']
      exact hd
    have hd2 : 4 ^ j ∣ a * a + b * b + c * c := Nat.dvd_of_mul_dvd_mul_left (by decide) hd1
    obtain ⟨ha, hb, hc⟩ := ih a b c (by omega) (by omega) (by omega) hd2
    subst ha hb hc
    exact ⟨rfl, rfl, rfl⟩

/-- The square of a wrapped-around `uint32` difference is the square of the
absolute difference, modulo `2^32`. -/
theorem mul32_sub32 (a b : Nat) (ha : a < 65536) (hb : b < 65536) :
    mul32 (sub32 a b) (sub32 a b) = ((a - b + (b - a)) * (a - b + (b - a))) % W32 := by
  unfold mul32 sub32 W32
  rw [Nat.mod_eq_of_lt (by omega : a < 4294967296), Nat.mod_eq_of_lt (by omega : b < 4294967296)]
  rcases Nat.lt_or_ge a b with h | h
  swap
  · obtain ⟨d, rfl⟩ : ∃ d, a = b + d := ⟨a - b, by omega⟩
    have e1 : (b + d + (4294967296 - b)) % 4294967296 = d := by omega
    have e2 : b + d - b + (b - (b + d)) = d := by omega
    rw [e1, e2]
  · obtain ⟨d, rfl⟩ : ∃ d, b = a + d := ⟨b - a, by omega⟩
    have hd : 0 < d := by omega
    obtain ⟨t, ht⟩ : ∃ t, 4294967296 = 2 * d + t := ⟨4294967296 - 2 * d, by omega⟩
    have e1 : (a + (4294967296 - (a + d))) % 4294967296 = d + t := by omega
    have e2 : a - (a + d) + (a + d - a) = d := by omega
    rw [e1, e2]
    have e3 : (d + t) * (d + t) = d * d + 4294967296 * t := by rw [ht]; ring
    rw [e3, Nat.add_mul_mod_self_left]

/-- The value of a successful `distance` on colours with 16-bit channels: the
sum of the squared channel differences, modulo `2^32`. -/
theorem distance_eq (a b : Color) (ha : a.R < 65536 ∧ a.G < 65536 ∧ a.B < 65536)
    (hb : b.R < 65536 ∧ b.G < 65536 ∧ b.B < 65536) :
    distance (some a) (some b) = .ok
      (((a.R - b.R + (b.R - a.R)) * (a.R - b.R + (b.R - a.R)) +
        (a.G - b.G + (b.G - a.G)) * (a.G - b.G + (b.G - a.G)) +
        (a.B - b.B + (b.B - a.B)) * (a.B - b.B + (b.B - a.B))) % W32) := by
  simp only [distance, mul32_sub32 _ _ ha.1 hb.1, mul32_sub32 _ _ ha.2.1 hb.2.1,
    mul32_sub32 _ _ ha.2.2 hb.2.2, add32, Nat.mod_add_mod, Nat.add_mod_mod]

theorem distance_self (a : Color) : distance (some a) (some a) = .ok 0 := by
  have h : ∀ x : Nat, sub32 x x = 0 := by
    intro x
    unfold sub32 W32
    have := Nat.mod_lt x (by decide : 0 < 4294967296)
    omega
  simp [distance, h, mul32, add32]

/-- Colours with 16-bit channels at `distance` zero have the same red, green
and blue channels. -/
theorem distance_zero {a b : Color} (ha : a.R < 65536 ∧ a.G < 65536 ∧ a.B < 65536)
    (hb : b.R < 65536 ∧ b.G < 65536 ∧ b.B < 65536)
    (h : distance (some a) (some b) = .ok 0) : a.R = b.R ∧ a.G = b.G ∧ a.B = b.B := by
  rw [distance_eq a b ha hb] at h
  simp only [Except.ok.injEq] at h
  have hd : 4 ^ 16 ∣ (a.R - b.R + (b.R - a.R)) * (a.R - b.R + (b.R - a.R)) +
        (a.G - b.G + (b.G - a.G)) * (a.G - b.G + (b.G - a.G)) +
        (a.B - b.B + (b.B - a.B)) * (a.B - b.B + (b.B - a.B)) :=
    Nat.dvd_of_mod_eq_zero h
  obtain ⟨h1, h2, h3⟩ := squares_zero_of_dvd 16 _ _ _ (by norm_num; omega) (by norm_num; omega)
    (by norm_num; omega) hd
  omega

/-! ## `nearest` minimises the distance -/

theorem nearestLoop_min {needle : Option Color} {hay : List (Option Color)} {i m : Nat}
    {r res : Option Color} (h : nearestLoop needle hay i m r = .ok res)
    (hinv : i ≠ 0 → distance needle r = .ok m) (hne : i = 0 → hay ≠ []) :
    ∃ dres, distance needle res = .ok dres ∧ (i ≠ 0 → dres ≤ m) ∧
      ∀ c ∈ hay, ∀ d, distance needle c = .ok d → dres ≤ d := by
  induction hay generalizing i m r with
  | nil =>
    have hi : i ≠ 0 := fun h0 => hne h0 rfl
    simp only [nearestLoop, Except.ok.injEq] at h
    subst h
    exact ⟨m, hinv hi, fun _ => le_refl _, by simp⟩
  | cons c rest ih =>
    simp only [nearestLoop] at h
    cases hd : distance needle c with
    | error f => simp [hd] at h
    | ok d =>
      simp only [hd] at h
      split at h
      · rename_i hcond
        obtain ⟨dres, h1, h2, h3⟩ := ih h (fun _ => hd) (by simp)
        have hle : dres ≤ d := h2 (by simp)
        refine ⟨dres, h1, ?_, ?_⟩
        · intro hi
          rcases hcond with h0 | hlt
          · exact absurd h0 hi
          · omega
        · intro x hx d' hd'
          rcases List.mem_cons.1 hx with rfl | hx
          · rw [hd] at hd'
            simp only [Except.ok.injEq] at hd'
            omega
          · exact h3 x hx d' hd'
      · rename_i hcond
        have hi : i ≠ 0 := fun h0 => hcond (Or.inl h0)
        have hmd : m ≤ d := by
          by_contra hlt
          exact hcond (Or.inr (by omega))
        obtain ⟨dres, h1, h2, h3⟩ := ih h (fun _ => hinv hi) (by simp)
        have hle : dres ≤ m := h2 (by simp)
        refine ⟨dres, h1, fun _ => hle, ?_⟩
        intro x hx d' hd'
        rcases List.mem_cons.1 hx with rfl | hx
        · rw [hd] at hd'
          simp only [Except.ok.injEq] at hd'
          omega
        · exact h3 x hx d' hd'

/-- The result of `nearest` on a non-empty haystack is at least as close to the
needle as every element of the haystack. -/
theorem nearest_min {needle res : Option Color} {hay : List (Option Color)}
    (h : nearest needle hay = .ok res) (hne : hay ≠ []) :
    ∃ dres, distance needle res = .ok dres ∧
      ∀ c ∈ hay, ∀ d, distance needle c = .ok d → dres ≤ d := by
  obtain ⟨dres, h1, _, h3⟩ := nearestLoop_min h (fun h0 => absurd rfl h0) (fun _ => hne)
  exact ⟨dres, h1, h3⟩

/-- A colour that occurs in a haystack of colours with 16-bit channels in which
no other element has its red, green and blue channels is its own nearest
element. -/
theorem nearest_self (a : Color) (hay : List (Option Color)) (hmem : some a ∈ hay)
    (hch : ∀ x ∈ hay, ∃ c : Color, x = some c ∧ c.R < 65536 ∧ c.G < 65536 ∧ c.B < 65536)
    (huniq : ∀ c : Color, some c ∈ hay → c.R = a.R → c.G = a.G → c.B = a.B → c = a) :
    nearest (some a) hay = .ok (some a) := by
  have hne : hay ≠ [] := List.ne_nil_of_mem hmem
  obtain ⟨res, hres⟩ := nearest_total a hay (fun x hx => by
    obtain ⟨c, rfl, _⟩ := hch x hx
    simp)
  obtain ⟨hin, _, _⟩ := nearest_ok_mem hres hne
  obtain ⟨dres, h1, h2⟩ := nearest_min hres hne
  have h0 : dres = 0 := Nat.le_zero.1 (h2 (some a) hmem 0 (distance_self a))
  obtain ⟨c, rfl, hc⟩ := hch res hin
  obtain ⟨a', ha', ha⟩ := hch (some a) hmem
  obtain rfl : a = a' := Option.some.inj ha'
  rw [h0] at h1
  obtain ⟨e1, e2, e3⟩ := distance_zero ha hc h1
  rw [hres, huniq c hin e1.symm e2.symm e3.symm]

/-! ## Runs in which every observation is its own centroid -/

theorem appendTo_new (cl : Clusters) (c x : Option Color) (h : c ∉ cl.map Prod.fst) :
    appendTo cl c x = cl ++ [(c, [x])] := by
  induction cl with
  | nil => rfl
  | cons e rest ih =>
    obtain ⟨key, members⟩ := e
    simp only [List.map_cons, List.mem_cons, not_or] at h
    have hk : ¬ key = c := fun hk => h.1 hk.symm
    simp only [appendTo, hk, if_false, ih h.2, List.cons_append]

theorem assign_self (centroids obs pre : List (Option Color))
    (hself : ∀ x ∈ obs, nearest x centroids = .ok x) (hnd : (pre ++ obs).Nodup) :
    assign centroids obs (pre.map fun x => (x, [x])) =
      .ok ((pre ++ obs).map fun x => (x, [x])) := by
  induction obs generalizing pre with
  | nil => simp [assign]
  | cons x rest ih =>
    have hx : x ∉ (pre.map fun x => (x, [x])).map Prod.fst := by
      simp only [List.map_map, Function.comp_def, List.map_id']
      intro hx
      have := List.nodup_append.1 hnd
      exact this.2.2 hx (by simp) 
    simp only [assign, hself x (by simp), appendTo_new _ _ _ hx]
    have := ih (pre ++ [x]) (fun y hy => hself y (by simp [hy])) (by simpa using hnd)
    simpa using this

theorem findCentroid_singleton (a : Color) : findCentroid [some a] = .ok (some a) := by
  simp [findCentroid, sumLoop, add32, W32, nearest_single]

theorem update_singletons (es : Clusters) (st : UpdateState)
    (hes : ∀ e ∈ es, ∃ a : Color, e = (some a, [some a]))
    (hj : st.j + es.length ≤ st.newCentroids.length) :
    ∃ st', update es st = .ok st' ∧ st'.converged = st.converged := by
  induction es generalizing st with
  | nil => exact ⟨st, rfl, rfl⟩
  | cons e rest ih =>
    obtain ⟨a, rfl⟩ := hes e (by simp)
    simp only [List.length_cons] at hj
    have hlt : st.j < st.newCentroids.length := by omega
    simp only [update, findCentroid_singleton, hlt, if_true, ne_eq, not_true, if_false]
    obtain ⟨st', h1, h2⟩ := ih ⟨st.converged, st.newCentroids.set st.j (some a), st.j + 1⟩
      (fun e he => hes e (by simp [he])) (by simp only [List.length_set]; omega)
    exact ⟨st', h1, h2⟩

theorem draws_perm (rnd : Nat → Nat) (obs : List (Option Color))
    (hdraw : ((List.range obs.length).map fun i => rnd i % obs.length).Nodup) :
    ((List.range' 0 obs.length).map fun j => (obs[rnd j % obs.length]?).getD none).Perm obs := by
  have hsub : ((List.range obs.length).map fun i => rnd i % obs.length) ⊆ List.range obs.length := by
    intro i hi
    obtain ⟨j, hj, rfl⟩ := List.mem_map.1 hi
    exact List.mem_range.2 (Nat.mod_lt _ (by have := List.mem_range.1 hj; omega))
  have hperm : ((List.range obs.length).map fun i => rnd i % obs.length).Perm
      (List.range obs.length) :=
    (List.subperm_of_subset hdraw hsub).perm_of_length_le (by simp)
  have hobs : (List.range obs.length).map (fun i => (obs[i]?).getD none) = obs := by
    apply List.ext_getElem
    · simp
    · intro i h1 h2
      simp [List.getElem?_eq_getElem h2]
  have := hperm.map (fun i => (obs[i]?).getD none)
  rw [hobs, List.map_map] at this
  rw [← List.range_eq_range']
  exact this

/-- Claim C8, as amended: `N ≥ 1` observations with 16-bit channels and pairwise
different red-green-blue triples, `k = N`, `maxIterations ≥ 1`, and initial
draws that hit every observation once: the loop is left through `break` after
its first iteration, every observation keys a cluster that holds it alone, and
`Cluster` returns one entry of weight `1/N` per observation. -/
theorem Cluster_distinct (rnd ord : Nat → Nat) (maxIterations : Int) (cs : List Color)
    (hne : cs ≠ [])
    (hch : ∀ c ∈ cs, c.R < 65536 ∧ c.G < 65536 ∧ c.B < 65536)
    (hdist : cs.Pairwise fun a b => ¬(a.R = b.R ∧ a.G = b.G ∧ a.B = b.B))
    (hdraw : ((List.range cs.length).map fun i => rnd i % cs.length).Nodup)
    (hmax : 1 ≤ maxIterations) :
    (∃ centroids newCentroids,
        drawCentroids rnd (cs.map some) cs.length 0 = .ok centroids ∧
        loop ord cs.length (cs.map some) maxIterations.toNat 0 centroids [] =
          .ok ⟨cs.map fun c => (some c, [some c]), newCentroids, 1, true⟩) ∧
      Cluster rnd ord cs.length (cs.map some) maxIterations =
        .ok (.ok (cs.map fun c => (some c, 1 / (cs.length : ℚ)))) := by
  have hobsne : cs.map some ≠ [] := by simpa using hne
  have hlen : (cs.map some).length = cs.length := List.length_map _ _
  obtain ⟨n, hn⟩ : ∃ n, maxIterations.toNat = n + 1 := ⟨maxIterations.toNat - 1, by omega⟩
  -- the initial centroids are a permutation of the observations
  have hd := drawCentroids_eq rnd (cs.map some) cs.length 0 hobsne
  have hperm := draws_perm rnd (cs.map some) (by rw [hlen]; exact hdraw)
  rw [hlen] at hperm hd
  generalize hcent :
    ((List.range' 0 cs.length).map fun j => ((cs.map some)[rnd j % cs.length]?).getD none) =
      centroids at hperm hd
  -- pairwise distinct colours
  have hinj : ∀ a ∈ cs, ∀ b ∈ cs, a.R = b.R → a.G = b.G → a.B = b.B → a = b := by
    intro a ha b hb h1 h2 h3
    by_contra hab
    have hsymm : Symmetric fun a b : Color => ¬(a.R = b.R ∧ a.G = b.G ∧ a.B = b.B) :=
      fun x y hxy hyx => hxy ⟨hyx.1.symm, hyx.2.1.symm, hyx.2.2.symm⟩
    exact List.Pairwise.forall hsymm hdist ha hb hab ⟨h1, h2, h3⟩
  have hnd : (cs.map some).Nodup := by
    refine List.Nodup.map (Option.some_injective _) ?_
    exact hdist.imp (fun {a b} hab heq => hab (by subst heq; exact ⟨rfl, rfl, rfl⟩))
  -- every observation is its own nearest centroid
  have hself : ∀ x ∈ cs.map some, nearest x centroids = .ok x := by
    intro x hx
    obtain ⟨a, ha, rfl⟩ := List.mem_map.1 hx
    refine nearest_self a centroids (hperm.mem_iff.2 hx) ?_ ?_
    · intro y hy
      obtain ⟨c, hc, rfl⟩ := List.mem_map.1 (hperm.mem_iff.1 hy)
      exact ⟨c, rfl, hch c hc⟩
    · intro c hc h1 h2 h3
      obtain ⟨c', hc', hcc⟩ := List.mem_map.1 (hperm.mem_iff.1 hc)
      have e : c' = c := Option.some.inj hcc
      rw [← e] at h1 h2 h3 ⊢
      exact hinj c' hc' a ha h1 h2 h3
  have hassign : assign centroids (cs.map some) [] =
      .ok (cs.map fun c => (some c, [some c])) := by
    have := assign_self centroids (cs.map some) [] hself (by simpa using hnd)
    simpa [List.map_map, Function.comp_def] using this
  obtain ⟨st, hst, hconv⟩ := update_singletons
    (mapOrder (ord 0) (cs.map fun c => (some c, [some c])))
    ⟨true, List.replicate cs.length none, 0⟩
    (fun e he => by
      obtain ⟨a, _, rfl⟩ := List.mem_map.1 ((mapOrder_perm _ _).mem_iff.1 he)
      exact ⟨a, rfl⟩)
    (by simp [(mapOrder_perm _ _).length_eq])
  have hloop : loop ord cs.length (cs.map some) (n + 1) 0 centroids [] =
      .ok ⟨cs.map fun c => (some c, [some c]), st.newCentroids, 1, true⟩ := by
    rw [loop_succ, hassign]
    simp only [hst]
    rw [if_pos hconv]
  refine ⟨⟨centroids, st.newCentroids, hd, hn ▸ hloop⟩, ?_⟩
  unfold Cluster
  rw [if_neg (by rw [hlen]; omega), if_neg (by omega)]
  simp only [Int.toNat_ofNat, hd, hn, hloop, clusterWeights, hlen, List.map_map,
    Function.comp_def, List.length_singleton, Nat.cast_one]

theorem Cluster_distinct_witness :
    (∃ centroids newCentroids,
        drawCentroids (fun i => i) [some ⟨0, 0, 0, 65535, 0⟩, some ⟨9, 9, 9, 65535, 0⟩] 2 0 =
          .ok centroids ∧
        loop (fun _ => 0) 2 [some ⟨0, 0, 0, 65535, 0⟩, some ⟨9, 9, 9, 65535, 0⟩] 3 0 centroids [] =
          .ok ⟨[(some ⟨0, 0, 0, 65535, 0⟩, [some ⟨0, 0, 0, 65535, 0⟩]),
                (some ⟨9, 9, 9, 65535, 0⟩, [some ⟨9, 9, 9, 65535, 0⟩])], newCentroids, 1, true⟩) ∧
      Cluster (fun i => i) (fun _ => 0) 2
          [some ⟨0, 0, 0, 65535, 0⟩, some ⟨9, 9, 9, 65535, 0⟩] 3 =
        .ok (.ok [(some ⟨0, 0, 0, 65535, 0⟩, 1 / 2), (some ⟨9, 9, 9, 65535, 0⟩, 1 / 2)]) := by
  simpa using Cluster_distinct (fun i => i) (fun _ => 0) 3
    [⟨0, 0, 0, 65535, 0⟩, ⟨9, 9, 9, 65535, 0⟩] (by simp) (by simp) (by simp) (by decide)
    (by decide)

/-- Claim C8 as stated fails: with two distinct observations and `k = 2`, a
single entry of weight one is returned when both initial draws hit the first
observation, and also when each observation is drawn once but the two differ in
their alpha channel only. -/
theorem Cluster_distinct_repeated_draw :
    Cluster (fun _ => 0) (fun _ => 0) 2 [grey 0, grey 10] 1 = .ok (.ok [(grey 0, 1)]) ∧
      Cluster (fun i => i) (fun _ => 0) 2 [some ⟨0, 0, 0, 65535, 0⟩, some ⟨0, 0, 0, 0, 0⟩] 1 =
        .ok (.ok [(some ⟨0, 0, 0, 65535, 0⟩, 1)]) := by
  have h1 : Cluster (fun _ => 0) (fun _ => 0) 2 [grey 0, grey 10] 1 =
      .ok (.ok (clusterWeights [(grey 0, [grey 0, grey 10])] 2)) := rfl
  have h2 : Cluster (fun i => i) (fun _ => 0) 2
        [some ⟨0, 0, 0, 65535, 0⟩, some ⟨0, 0, 0, 0, 0⟩] 1 =
      .ok (.ok (clusterWeights
        [(some ⟨0, 0, 0, 65535, 0⟩, [some ⟨0, 0, 0, 65535, 0⟩, some ⟨0, 0, 0, 0, 0⟩])] 2)) := rfl
  rw [h1, h2]
  constructor <;> norm_num [clusterWeights]

/-! ## The black-and-white scenario -/

theorem mapOrder_pair {α : Type} (code : Nat) (a b : α) :
    mapOrder code [a, b] = [a, b] ∨ mapOrder code [a, b] = [b, a] := by
  have h : code % 2 = 0 ∨ code % 2 = 1 := by omega
  rcases h with h | h
  · left; simp [mapOrder, insertAt, h]
  · right; simp [mapOrder, insertAt, h]

theorem loop_black_white (ord : Nat → Nat) (centroids : List (Option Color))
    (hc : centroids = [Black, White] ∨ centroids = [White, Black]) :
    ∃ newCentroids, loop ord 2 [Black, Black, White, White] 10 0 centroids [] =
      .ok ⟨[(Black, [Black, Black]), (White, [White, White])], newCentroids, 1, true⟩ := by
  have ha : assign centroids [Black, Black, White, White] [] =
      .ok [(Black, [Black, Black]), (White, [White, White])] := by
    rcases hc with rfl | rfl <;> rfl
  rw [loop_succ, ha]
  rcases mapOrder_pair (ord 0) (Black, [Black, Black]) (White, [White, White]) with h | h
  · simp only [h]
    exact ⟨[Black, White], rfl⟩
  · simp only [h]
    exact ⟨[White, Black], rfl⟩

/-- Claim C9, as amended: Observations `[Black, Black, White, White]`, `k = 2`,
`maxIterations = 10`: whenever the two initial draws pick one black and one
white observation, in either order and for every iteration order of the map,
the loop is left through `break` after its first iteration and `Cluster` returns
exactly the two entries Black and White, each of weight one half. -/
theorem Cluster_black_white (rnd ord : Nat → Nat)
    (hdraw : (rnd 0 % 4 < 2 ∧ 2 ≤ rnd 1 % 4) ∨ (2 ≤ rnd 0 % 4 ∧ rnd 1 % 4 < 2)) :
    (∃ centroids newCentroids,
        drawCentroids rnd [Black, Black, White, White] 2 0 = .ok centroids ∧
        loop ord 2 [Black, Black, White, White] 10 0 centroids [] =
          .ok ⟨[(Black, [Black, Black]), (White, [White, White])], newCentroids, 1, true⟩) ∧
      Cluster rnd ord 2 [Black, Black, White, White] 10 =
        .ok (.ok [(Black, 1 / 2), (White, 1 / 2)]) := by
  have hd := drawCentroids_eq rnd [Black, Black, White, White] 2 0 (by simp)
  simp only [List.length_cons, List.length_nil, Nat.zero_add, Nat.reduceAdd] at hd
  have h0 : rnd 0 % 4 < 4 := Nat.mod_lt _ (by decide)
  have h1 : rnd 1 % 4 < 4 := Nat.mod_lt _ (by decide)
  have hc : ((List.range' 0 2).map fun j =>
        (([Black, Black, White, White] : List (Option Color))[rnd j % 4]?).getD none) =
        [Black, White] ∨
      ((List.range' 0 2).map fun j =>
        (([Black, Black, White, White] : List (Option Color))[rnd j % 4]?).getD none) =
        [White, Black] := by
    simp only [List.range', List.map_cons, List.map_nil]
    generalize rnd 0 % 4 = i at h0 hdraw
    generalize rnd (0 + 1) % 4 = j at h1 hdraw
    interval_cases i <;> interval_cases j <;> simp at hdraw <;> simp
  obtain ⟨nc, hl⟩ := loop_black_white ord _ hc
  refine ⟨⟨_, nc, hd, hl⟩, ?_⟩
  unfold Cluster
  rw [if_neg (by decide), if_neg (by decide)]
  have e2 : (2 : Int).toNat = 2 := rfl
  have e10 : (10 : Int).toNat = 10 := rfl
  simp only [e2, e10, hd, hl, clusterWeights]
  norm_num

theorem Cluster_black_white_witness :
    (∃ centroids newCentroids,
        drawCentroids (fun i => 3 * i) [Black, Black, White, White] 2 0 = .ok centroids ∧
        loop (fun _ => 1) 2 [Black, Black, White, White] 10 0 centroids [] =
          .ok ⟨[(Black, [Black, Black]), (White, [White, White])], newCentroids, 1, true⟩) ∧
      Cluster (fun i => 3 * i) (fun _ => 1) 2 [Black, Black, White, White] 10 =
        .ok (.ok [(Black, 1 / 2), (White, 1 / 2)]) :=
  Cluster_black_white (fun i => 3 * i) (fun _ => 1) (by decide)

/-- Claim C9 as stated fails: When both initial draws pick the first (black)
observation, `Cluster` returns the single entry Black of weight one. -/
theorem Cluster_black_white_repeated_draw :
    Cluster (fun _ => 0) (fun _ => 0) 2 [Black, Black, White, White] 10 =
      .ok (.ok [(Black, 1)]) := by
  have h : Cluster (fun _ => 0) (fun _ => 0) 2 [Black, Black, White, White] 10 =
      .ok (.ok (clusterWeights [(Black, [Black, Black, White, White])] 4)) := rfl
  rw [h]
  norm_num [clusterWeights]

/-! ## Parameter checks -/

theorem drawCentroids_total (rnd : Nat → Nat) (obs : List (Option Color)) (n i : Nat)
    (h : n = 0 ∨ obs ≠ []) : ∃ cs, drawCentroids rnd obs n i = .ok cs := by
  rcases h with rfl | h
  · exact ⟨[], rfl⟩
  · exact ⟨_, drawCentroids_eq rnd obs n i h⟩

/-- Claim C7, as amended: The only parameter check of `Cluster` is
`len(observations) < k`: an error is returned exactly in that case.  A
`maxIterations ≤ 0` is not rejected: with `0 ≤ k ≤ len(observations)` the call
returns an empty weight map and no error. -/
theorem Cluster_validation (rnd ord : Nat → Nat) (k maxIterations : Int)
    (observations : List (Option Color)) :
    ((∃ e, Cluster rnd ord k observations maxIterations = .ok (.error e)) ↔
        (observations.length : Int) < k) ∧
      (0 ≤ k → k ≤ observations.length → maxIterations ≤ 0 →
        Cluster rnd ord k observations maxIterations = .ok (.ok [])) := by
  constructor
  · constructor
    · rintro ⟨e, he⟩
      by_contra hN
      unfold Cluster at he
      rw [if_neg hN] at he
      split at he
      · simp at he
      · cases hd : drawCentroids rnd observations k.toNat 0 with
        | error f => simp [hd] at he
        | ok cs =>
          simp only [hd] at he
          cases hl : loop ord k.toNat observations maxIterations.toNat 0 cs [] with
          | error f => simp [hl] at he
          | ok st => simp [hl] at he
    · intro h
      refine ⟨⟨observations.length, k⟩, ?_⟩
      unfold Cluster
      rw [if_pos h]
  · intro hk hN hmax
    have hdraw : k.toNat = 0 ∨ observations ≠ [] := by
      by_cases h0 : k.toNat = 0
      · exact Or.inl h0
      · right
        intro he
        rw [he] at hN
        simp only [List.length_nil, Nat.cast_zero] at hN
        omega
    obtain ⟨cs, hcs⟩ := drawCentroids_total rnd observations k.toNat 0 hdraw
    have hm : maxIterations.toNat = 0 := by omega
    unfold Cluster
    rw [if_neg (by omega), if_neg (by omega)]
    simp only [hcs, hm, loop, clusterWeights, List.map_nil]

theorem Cluster_validation_witness :
    ((∃ e, Cluster (fun _ => 0) (fun _ => 0) 1 [grey 0, grey 1] (-1) = .ok (.error e)) ↔
        (([grey 0, grey 1] : List (Option Color)).length : Int) < 1) ∧
      ((0 : Int) ≤ 1 → (1 : Int) ≤ ([grey 0, grey 1] : List (Option Color)).length →
        (-1 : Int) ≤ 0 →
        Cluster (fun _ => 0) (fun _ => 0) 1 [grey 0, grey 1] (-1) = .ok (.ok [])) :=
  Cluster_validation (fun _ => 0) (fun _ => 0) 1 (-1) [grey 0, grey 1]

/-- Claim C7 as stated fails: With `maxIterations = 0` a weight map (the empty
one) and no error is returned; so it is for `k = 0` and no observation. -/
theorem Cluster_zero_iterations :
    Cluster (fun _ => 0) (fun _ => 0) 1 [grey 0] 0 = .ok (.ok []) ∧
      Cluster (fun _ => 0) (fun _ => 0) 0 [] 1 = .ok (.ok []) :=
  ⟨rfl, rfl⟩

/-! ## What a run depends on -/

theorem drawCentroids_congr (rnd rnd' : Nat → Nat) (obs : List (Option Color)) (n i : Nat)
    (h : ∀ j, i ≤ j → j < i + n → rnd j % obs.length = rnd' j % obs.length) :
    drawCentroids rnd obs n i = drawCentroids rnd' obs n i := by
  induction n generalizing i with
  | zero => rfl
  | succ n ih =>
    have h0 := h i (le_refl _) (by omega)
    have hrest := ih (i + 1) (fun j h1 h2 => h j (by omega) (by omega))
    simp only [drawCentroids, intn, h0, hrest]

theorem set_append_length (pre : List (Option Color)) (a b : Option Color)
    (tl : List (Option Color)) :
    (pre ++ b :: tl).set pre.length a = pre ++ a :: tl := by
  induction pre with
  | nil => rfl
  | cons x xs ih => simp [ih]

/-- The update loop in closed form, when `findCentroid` succeeds on every
cluster (with result `g`) and the free slots of `newCentroids` suffice: the
flag stays set exactly when every cluster keeps its key, and the new centroids
fill the slots in the order of the visit. -/
theorem update_fill (g : Option Color × List (Option Color) → Option Color) (es : Clusters)
    (pre : List (Option Color)) (m : Nat) (conv : Bool)
    (hg : ∀ e ∈ es, findCentroid e.2 = .ok (g e)) (hlen : es.length ≤ m) :
    update es ⟨conv, pre ++ List.replicate m none, pre.length⟩ =
      .ok ⟨conv && es.all (fun e => decide (g e = e.1)),
        pre ++ es.map g ++ List.replicate (m - es.length) none, pre.length + es.length⟩ := by
  induction es generalizing pre m conv with
  | nil => simp [update]
  | cons e rest ih =>
    obtain ⟨centroid, cluster⟩ := e
    obtain ⟨m, rfl⟩ : ∃ m2, m = m2 + 1 := ⟨m - 1, by simp at hlen; omega⟩
    have hge := hg (centroid, cluster) (by simp)
    simp only at hge
    have hlt : pre.length < (pre ++ List.replicate (m + 1) none).length := by simp
    simp only [update, hge, hlt, if_true, List.replicate_succ, set_append_length]
    have e1 : pre ++ g (centroid, cluster) :: List.replicate m none =
        (pre ++ [g (centroid, cluster)]) ++ List.replicate m none := by simp
    have e2 : pre.length + 1 = (pre ++ [g (centroid, cluster)]).length := by simp
    rw [e1, e2, ih (pre ++ [g (centroid, cluster)]) m _
      (fun x hx => hg x (by simp [hx])) (by simp at hlen; omega)]
    simp only [List.all_cons, List.map_cons, List.length_cons, List.length_append,
      List.length_singleton, List.append_assoc, List.singleton_append, Nat.add_sub_add_right,
      Except.ok.injEq, UpdateState.mk.injEq]
    by_cases hc : g (centroid, cluster) = centroid
    · simp [hc]
      omega
    · simp [hc]
      omega

/-- The update loop fails with the fault `f` when `findCentroid` fails with it
on some cluster, succeeds or fails with it on the others, and the free slots
suffice. -/
theorem update_fail (f : Fault) (es : Clusters) (st : UpdateState)
    (hall : ∀ e ∈ es, (∃ r, findCentroid e.2 = .ok r) ∨ findCentroid e.2 = .error f)
    (hex : ∃ e ∈ es, findCentroid e.2 = .error f)
    (hj : st.j + es.length ≤ st.newCentroids.length) :
    update es st = .error f := by
  induction es generalizing st with
  | nil =>
    obtain ⟨e, he, _⟩ := hex
    simp at he
  | cons e rest ih =>
    obtain ⟨centroid, cluster⟩ := e
    simp only [List.length_cons] at hj
    rcases hall (centroid, cluster) (by simp) with ⟨r, hr⟩ | herr
    · simp only at hr
      have hlt : st.j < st.newCentroids.length := by omega
      simp only [update, hr, hlt, if_true]
      apply ih
      · exact fun x hx => hall x (by simp [hx])
      · obtain ⟨x, hx, hxe⟩ := hex
        rcases List.mem_cons.1 hx with rfl | hx
        · simp only at hxe
          rw [hr] at hxe
          simp at hxe
        · exact ⟨x, hx, hxe⟩
      · simp only [List.length_set]
        omega
    · simp only at herr
      simp only [update, herr]

theorem assign_nil_acc (obs acc : List (Option Color)) :
    assign [] obs [(none, acc)] = .ok [(none, acc ++ obs)] := by
  induction obs generalizing acc with
  | nil => simp [assign]
  | cons x rest ih =>
    simp only [assign, nearest_nil, appendTo, if_true]
    rw [ih]
    simp

/-- Without centroids (`k = 0`) the map has at most one entry. -/
theorem assign_nil_length {obs : List (Option Color)} {cl : Clusters}
    (h : assign [] obs [] = .ok cl) : cl.length ≤ 1 := by
  cases obs with
  | nil =>
    simp only [assign, Except.ok.injEq] at h
    subst h
    simp
  | cons x rest =>
    simp only [assign, nearest_nil, appendTo] at h
    rw [assign_nil_acc] at h
    simp only [Except.ok.injEq] at h
    subst h
    simp

theorem mapOrder_short {α : Type} (code : Nat) (l : List α) (h : l.length ≤ 1) :
    mapOrder code l = l := by
  cases l with
  | nil => rfl
  | cons x xs =>
    cases xs with
    | nil => exact mapOrder_singleton code x
    | cons y ys => simp at h

theorem all_perm {α : Type} (q : α → Bool) {l1 l2 : List α} (h : l1.Perm l2) :
    l1.all q = l2.all q := by
  rw [Bool.eq_iff_iff, List.all_eq_true, List.all_eq_true]
  exact ⟨fun h1 x hx => h1 x (h.mem_iff.2 hx), fun h2 x hx => h2 x (h.mem_iff.1 hx)⟩

/-- One update step from the same clusters under two iteration orders of the
map: both fail with the same fault, or both succeed with the same convergence
flag and with new centroid lists that are permutations of each other. -/
theorem update_orders (code1 code2 k : Nat) (obs cs : List (Option Color)) (cl : Clusters)
    (ha : assign cs obs [] = .ok cl) (hk : cs.length = k) :
    (∃ f, update (mapOrder code1 cl) ⟨true, List.replicate k none, 0⟩ = .error f ∧
        update (mapOrder code2 cl) ⟨true, List.replicate k none, 0⟩ = .error f) ∨
      ∃ u1 u2, update (mapOrder code1 cl) ⟨true, List.replicate k none, 0⟩ = .ok u1 ∧
        update (mapOrder code2 cl) ⟨true, List.replicate k none, 0⟩ = .ok u2 ∧
        u1.converged = u2.converged ∧ u1.newCentroids.Perm u2.newCentroids := by
  by_cases hcs : cs = []
  · subst hcs
    have hshort := assign_nil_length ha
    rw [mapOrder_short code1 cl hshort, mapOrder_short code2 cl hshort]
    cases hu : update cl ⟨true, List.replicate k none, 0⟩ with
    | error f => exact Or.inl ⟨f, rfl, rfl⟩
    | ok u => exact Or.inr ⟨u, u, rfl, rfl, rfl, List.Perm.refl _⟩
  · have hobs := assign_obs_some ha hcs
    have hmem : ∀ e ∈ cl, ∀ x ∈ e.2, x ≠ none := by
      intro e he x hx
      have hx2 : x ∈ (cl.map Prod.snd).flatten :=
        List.mem_flatten.2 ⟨e.2, List.mem_map.2 ⟨e, he, rfl⟩, hx⟩
      exact hobs x (by simpa using (assign_members ha).mem_iff.1 hx2)
    have hlen : cl.length ≤ k := by
      have hsub : cl.map Prod.fst ⊆ cs := by
        intro key hkey
        rcases assign_keys ha hcs key hkey with h1 | h1
        · simp at h1
        · exact h1.1
      have := (List.subperm_of_subset (assign_nodup ha (by simp)) hsub).length_le
      rw [List.length_map, hk] at this
      exact this
    have p1 := mapOrder_perm code1 cl
    have p2 := mapOrder_perm code2 cl
    by_cases hbad : ∃ e ∈ cl, e.2.length % W32 = 0
    · left
      refine ⟨.divideByZero, ?_, ?_⟩
      · apply update_fail
        · intro e he
          have he2 := p1.mem_iff.1 he
          by_cases hz : e.2.length % W32 = 0
          · exact Or.inr (findCentroid_divideByZero e.2 (hmem e he2) hz)
          · exact Or.inl (findCentroid_total e.2 (hmem e he2) hz)
        · obtain ⟨e, he, hz⟩ := hbad
          exact ⟨e, p1.mem_iff.2 he, findCentroid_divideByZero e.2 (hmem e he) hz⟩
        · simp [p1.length_eq, hlen]
      · apply update_fail
        · intro e he
          have he2 := p2.mem_iff.1 he
          by_cases hz : e.2.length % W32 = 0
          · exact Or.inr (findCentroid_divideByZero e.2 (hmem e he2) hz)
          · exact Or.inl (findCentroid_total e.2 (hmem e he2) hz)
        · obtain ⟨e, he, hz⟩ := hbad
          exact ⟨e, p2.mem_iff.2 he, findCentroid_divideByZero e.2 (hmem e he) hz⟩
        · simp [p2.length_eq, hlen]
    · right
      have hg : ∀ e ∈ cl, findCentroid e.2 = .ok
          (match findCentroid e.2 with
            | .ok r => r
            | .error _ => none) := by
        intro e he
        obtain ⟨r, hr⟩ := findCentroid_total e.2 (hmem e he)
          (fun hz => hbad ⟨e, he, hz⟩)
        rw [hr]
      have f1 := update_fill (fun e => match findCentroid e.2 with
            | .ok r => r
            | .error _ => none) (mapOrder code1 cl) [] k true
        (fun e he => hg e (p1.mem_iff.1 he)) (by rw [p1.length_eq]; exact hlen)
      have f2 := update_fill (fun e => match findCentroid e.2 with
            | .ok r => r
            | .error _ => none) (mapOrder code2 cl) [] k true
        (fun e he => hg e (p2.mem_iff.1 he)) (by rw [p2.length_eq]; exact hlen)
      simp only [List.nil_append, List.length_nil] at f1 f2
      refine ⟨_, _, f1, f2, ?_, ?_⟩
      · simp only
        rw [all_perm _ (p1.trans p2.symm)]
      · simp only
        rw [p1.length_eq, p2.length_eq]
        exact ((p1.trans p2.symm).map _).append_right _

theorem distance_error {a b : Option Color} {f : Fault} (h : distance a b = .error f) :
    f = .nilDereference := by
  cases a with
  | none => simp [distance] at h; exact h.symm
  | some ca =>
    cases b with
    | none => simp [distance] at h; exact h.symm
    | some cb => simp [distance] at h

theorem nearestLoop_error {needle : Option Color} {hay : List (Option Color)} {i m : Nat}
    {r : Option Color} {f : Fault} (h : nearestLoop needle hay i m r = .error f) :
    f = .nilDereference := by
  induction hay generalizing i m r with
  | nil => simp [nearestLoop] at h
  | cons c rest ih =>
    simp only [nearestLoop] at h
    cases hd : distance needle c with
    | error g =>
      simp only [hd, Except.error.injEq] at h
      rw [← h]
      exact distance_error hd
    | ok d =>
      simp only [hd] at h
      split at h
      · exact ih h
      · exact ih h

/-- The result of `nearest` does not depend on the order of the haystack when
the needle is not equally far from two different candidates. -/
theorem nearest_perm (obs hay1 hay2 : List (Option Color)) (x : Option Color)
    (hp : hay1.Perm hay2) (hentries : ∀ c ∈ hay1, c ≠ none → c ∈ obs)
    (hties : ∀ c ∈ obs, ∀ c2 ∈ obs, ∀ d,
      distance x c = .ok d → distance x c2 = .ok d → c = c2) :
    nearest x hay1 = nearest x hay2 := by
  by_cases hnil : hay1 = []
  · subst hnil
    rw [List.Perm.eq_nil hp.symm]
  have hnil2 : hay2 ≠ [] := fun h => hnil (by rw [h] at hp; exact List.Perm.eq_nil hp)
  have total : ∀ {h1 h2 : List (Option Color)} {r : Option Color}, h1.Perm h2 → h1 ≠ [] →
      nearest x h1 = .ok r → ∃ r2, nearest x h2 = .ok r2 := by
    intro h1 h2 r hperm hne hok
    have hsome := nearestLoop_ok_some hok
    obtain ⟨_, _, hx⟩ := nearest_ok_mem hok hne
    obtain ⟨a, rfl⟩ := Option.ne_none_iff_exists'.1 hx
    exact nearest_total a h2 (fun c hc => (hsome c (hperm.mem_iff.2 hc)).2)
  cases e1 : nearest x hay1 with
  | error f1 =>
    cases e2 : nearest x hay2 with
    | error f2 => rw [nearestLoop_error e1, nearestLoop_error e2]
    | ok r2 =>
      obtain ⟨r, hr⟩ := total hp.symm hnil2 e2
      rw [e1] at hr
      simp at hr
  | ok r1 =>
    cases e2 : nearest x hay2 with
    | error f2 =>
      obtain ⟨r, hr⟩ := total hp hnil e1
      rw [e2] at hr
      simp at hr
    | ok r2 =>
      obtain ⟨m1, n1, _⟩ := nearest_ok_mem e1 hnil
      obtain ⟨m2, n2, _⟩ := nearest_ok_mem e2 hnil2
      obtain ⟨d1, hd1, min1⟩ := nearest_min e1 hnil
      obtain ⟨d2, hd2, min2⟩ := nearest_min e2 hnil2
      have le1 : d1 ≤ d2 := min1 r2 (hp.mem_iff.2 m2) d2 hd2
      have le2 : d2 ≤ d1 := min2 r1 (hp.mem_iff.1 m1) d1 hd1
      have hd : d1 = d2 := by omega
      rw [← hd] at hd2
      rw [hties r1 (hentries r1 m1 n1) r2 (hentries r2 (hp.mem_iff.2 m2) n2) d1 hd1 hd2]

theorem assign_congr (cs1 cs2 obs : List (Option Color)) (acc : Clusters)
    (h : ∀ x ∈ obs, nearest x cs1 = nearest x cs2) :
    assign cs1 obs acc = assign cs2 obs acc := by
  induction obs generalizing acc with
  | nil => rfl
  | cons x rest ih =>
    simp only [assign, h x (by simp)]
    cases nearest x cs2 with
    | error f => rfl
    | ok c => exact ih _ (fun y hy => h y (by simp [hy]))

/-- Two runs of the main loop from centroid lists that are permutations of each
other, under two families of iteration orders, when the assignment pass does not
depend on the order of the centroid list: both fail with the same fault or both
leave the same clusters. -/
theorem loop_orders (ord ord2 : Nat → Nat) (k : Nat) (obs : List (Option Color))
    (hA : ∀ cs1 cs2 : List (Option Color), cs1.Perm cs2 → CentroidsOk k obs cs1 →
      assign cs1 obs [] = assign cs2 obs [])
    (n i : Nat) (cs1 cs2 : List (Option Color)) (cl : Clusters)
    (hp : cs1.Perm cs2) (hok : CentroidsOk k obs cs1) :
    (∃ f, loop ord k obs n i cs1 cl = .error f ∧ loop ord2 k obs n i cs2 cl = .error f) ∨
      ∃ s1 s2, loop ord k obs n i cs1 cl = .ok s1 ∧ loop ord2 k obs n i cs2 cl = .ok s2 ∧
        s1.clusters = s2.clusters := by
  induction n generalizing i cs1 cs2 cl with
  | zero => exact Or.inr ⟨_, _, rfl, rfl, rfl⟩
  | succ n ih =>
    rw [loop_succ, loop_succ, ← hA cs1 cs2 hp hok]
    cases ha : assign cs1 obs [] with
    | error f => exact Or.inl ⟨f, rfl, rfl⟩
    | ok clusters =>
      simp only []
      rcases update_orders (ord i) (ord2 i) k obs cs1 clusters ha hok.1 with
        ⟨f, h1, h2⟩ | ⟨u1, u2, h1, h2, hc, hperm⟩
      · rw [h1, h2]
        exact Or.inl ⟨f, rfl, rfl⟩
      · rw [h1, h2]
        simp only []
        by_cases hconv : u1.converged = true
        · rw [if_pos hconv, if_pos (hc ▸ hconv)]
          exact Or.inr ⟨_, _, rfl, rfl, rfl⟩
        · rw [if_neg hconv, if_neg (hc ▸ hconv)]
          exact ih (i + 1) u1.newCentroids u2.newCentroids clusters hperm
            (update_preserves ha h1).1

/-- A run of at most one iteration from one centroid list under two iteration
orders of the map: both fail with the same fault or both leave the same
clusters. -/
theorem loop_orders_one (ord ord2 : Nat → Nat) (k : Nat) (obs : List (Option Color))
    (n i : Nat) (cs : List (Option Color)) (cl : Clusters) (hn : n ≤ 1) (hk : cs.length = k) :
    (∃ f, loop ord k obs n i cs cl = .error f ∧ loop ord2 k obs n i cs cl = .error f) ∨
      ∃ s1 s2, loop ord k obs n i cs cl = .ok s1 ∧ loop ord2 k obs n i cs cl = .ok s2 ∧
        s1.clusters = s2.clusters := by
  cases n with
  | zero => exact Or.inr ⟨_, _, rfl, rfl, rfl⟩
  | succ n =>
    obtain rfl : n = 0 := by omega
    rw [loop_succ, loop_succ]
    cases ha : assign cs obs [] with
    | error f => exact Or.inl ⟨f, rfl, rfl⟩
    | ok clusters =>
      simp only []
      rcases update_orders (ord i) (ord2 i) k obs cs clusters ha hk with
        ⟨f, h1, h2⟩ | ⟨u1, u2, h1, h2, hc, _⟩
      · rw [h1, h2]
        exact Or.inl ⟨f, rfl, rfl⟩
      · rw [h1, h2]
        simp only []
        by_cases hconv : u1.converged = true
        · rw [if_pos hconv, if_pos (hc ▸ hconv)]
          exact Or.inr ⟨_, _, rfl, rfl, rfl⟩
        · rw [if_neg hconv, if_neg (hc ▸ hconv)]
          exact Or.inr ⟨_, _, rfl, rfl, rfl⟩

/-- Claim C10, as amended: once the `k` initial draws are fixed, the outcome of
`Cluster` (weight map, error or failure) is the same for every order in which the
clusters map is ranged over in the iterations, provided that at most one
iteration is allowed or that no observation is equally far, in the program's
`distance`, from two different observations. -/
theorem Cluster_order_independent (rnd rnd2 ord ord2 : Nat → Nat) (k maxIterations : Int)
    (observations : List (Option Color))
    (hrnd : ∀ i : Nat, (i : Int) < k →
      rnd i % observations.length = rnd2 i % observations.length)
    (h : maxIterations ≤ 1 ∨ ∀ x ∈ observations, ∀ c ∈ observations, ∀ c2 ∈ observations,
      ∀ d, distance x c = .ok d → distance x c2 = .ok d → c = c2) :
    Cluster rnd ord k observations maxIterations =
      Cluster rnd2 ord2 k observations maxIterations := by
  unfold Cluster
  rw [drawCentroids_congr rnd rnd2 observations k.toNat 0
    (fun j _ h2 => hrnd j (by omega))]
  split
  · rfl
  · split
    · rfl
    · cases hd : drawCentroids rnd2 observations k.toNat 0 with
      | error f => rfl
      | ok cs =>
        simp only []
        have hcs : CentroidsOk k.toNat observations cs :=
          ⟨(drawCentroids_ok hd).1, fun c hc _ => (drawCentroids_ok hd).2 c hc⟩
        have key : (∃ f, loop ord k.toNat observations maxIterations.toNat 0 cs [] = .error f ∧
              loop ord2 k.toNat observations maxIterations.toNat 0 cs [] = .error f) ∨
            ∃ s1 s2, loop ord k.toNat observations maxIterations.toNat 0 cs [] = .ok s1 ∧
              loop ord2 k.toNat observations maxIterations.toNat 0 cs [] = .ok s2 ∧
              s1.clusters = s2.clusters := by
          rcases h with h1 | hties
          · exact loop_orders_one ord ord2 k.toNat observations maxIterations.toNat 0 cs []
              (by omega) hcs.1
          · refine loop_orders ord ord2 k.toNat observations ?_ maxIterations.toNat 0 cs cs []
              (List.Perm.refl _) hcs
            intro cs1 cs2 hp hok
            exact assign_congr cs1 cs2 observations [] (fun x hx =>
              nearest_perm observations cs1 cs2 x hp hok.2 (hties x hx))
        rcases key with ⟨f, e1, e2⟩ | ⟨s1, s2, e1, e2, hcl⟩
        · rw [e1, e2]
        · rw [e1, e2]
          simp only [hcl]

theorem Cluster_order_independent_witness :
    Cluster (fun i => i) (fun _ => 0) 2 [grey 3, grey 1, grey 0, grey 0] 3 =
      Cluster (fun i => i + 4) (fun _ => 1) 2 [grey 3, grey 1, grey 0, grey 0] 3 :=
  Cluster_order_independent (fun i => i) (fun i => i + 4) (fun _ => 0) (fun _ => 1) 2 3
    [grey 3, grey 1, grey 0, grey 0]
    (fun i _ => by simp)
    (Or.inr (by
      intro x hx c hc c2 hc2 d h1 h2
      simp only [List.mem_cons, List.mem_singleton, List.not_mem_nil, or_false] at hx hc hc2
      rcases hx with rfl | rfl | rfl | rfl <;> rcases hc with rfl | rfl | rfl | rfl <;>
        rcases hc2 with rfl | rfl | rfl | rfl <;>
        first
          | rfl
          | (simp [distance, grey, sub32, mul32, add32, W32] at h1 h2; omega)))

/-- Claim C10 as stated fails: Same observations, `k`, `maxIterations` and
initial draws, two iteration orders of the map in the first iteration: the
second iteration sees the centroids `[grey 4, grey 0]` or `[grey 0, grey 4]`,
the observation `grey 2` is equally far from both and joins the first, and the
returned weights differ. -/
theorem Cluster_order_dependent :
    Cluster (fun i => i) (fun _ => 0) 2 [grey 4, grey 2, grey 0, grey 0] 3 =
        .ok (.ok [(grey 4, 1 / 2), (grey 0, 1 / 2)]) ∧
      Cluster (fun i => i) (fun _ => 1) 2 [grey 4, grey 2, grey 0, grey 0] 3 =
        .ok (.ok [(grey 4, 1 / 4), (grey 0, 3 / 4)]) := by
  have h0 : Cluster (fun i => i) (fun _ => 0) 2 [grey 4, grey 2, grey 0, grey 0] 3 =
      .ok (.ok (clusterWeights [(grey 4, [grey 4, grey 2]), (grey 0, [grey 0, grey 0])] 4)) := rfl
  have h1 : Cluster (fun i => i) (fun _ => 1) 2 [grey 4, grey 2, grey 0, grey 0] 3 =
      .ok (.ok (clusterWeights [(grey 4, [grey 4]), (grey 0, [grey 2, grey 0, grey 0])] 4)) := rfl
  rw [h0, h1]
  constructor <;> norm_num [clusterWeights]


/-! ## `distance`: wrap-around, symmetry, separation -/

/-- When the exact sum of the squared channel differences of two colours with
16-bit channels is below `2^32`, `distance` returns it. -/
theorem distance_exact (a b : Color) (ha : a.R < 65536 ∧ a.G < 65536 ∧ a.B < 65536)
    (hb : b.R < 65536 ∧ b.G < 65536 ∧ b.B < 65536)
    (hlt : (a.R - b.R + (b.R - a.R)) * (a.R - b.R + (b.R - a.R)) +
        (a.G - b.G + (b.G - a.G)) * (a.G - b.G + (b.G - a.G)) +
        (a.B - b.B + (b.B - a.B)) * (a.B - b.B + (b.B - a.B)) < W32) :
    distance (some a) (some b) = .ok
      ((a.R - b.R + (b.R - a.R)) * (a.R - b.R + (b.R - a.R)) +
        (a.G - b.G + (b.G - a.G)) * (a.G - b.G + (b.G - a.G)) +
        (a.B - b.B + (b.B - a.B)) * (a.B - b.B + (b.B - a.B))) := by
  rw [distance_eq a b ha hb, Nat.mod_eq_of_lt hlt]

/-- The alpha channels (and the identity) of the two colours do not enter
`distance`. -/
theorem distance_alpha (a b : Color) (x y t u : Nat) :
    distance (some ⟨a.R, a.G, a.B, x, t⟩) (some ⟨b.R, b.G, b.B, y, u⟩) =
      distance (some a) (some b) := rfl

/-- Claim C11: on white and black, colours with channels in `0..65535`, the exact
sum of the squared channel differences is `12884508675`, which does not fit a
`uint32`; `distance` returns it modulo `2^32`. -/
theorem distance_wraps :
    distance (some ⟨65535, 65535, 65535, 65535, 0⟩) (some ⟨0, 0, 0, 65535, 0⟩) =
        .ok 4294574083 ∧
      ((65535 : Int) - 0) ^ 2 + ((65535 : Int) - 0) ^ 2 + ((65535 : Int) - 0) ^ 2 =
        12884508675 := by
  constructor
  · rfl
  · norm_num

theorem mul32_sub32_comm (a b : Nat) :
    mul32 (sub32 a b) (sub32 a b) = mul32 (sub32 b a) (sub32 b a) := by
  have key : ∀ x y : Nat, x < W32 → y < W32 → x < y →
      ((x + (W32 - y)) % W32 * ((x + (W32 - y)) % W32)) % W32 =
        ((y + (W32 - x)) % W32 * ((y + (W32 - x)) % W32)) % W32 := by
    intro x y hx hy hxy
    obtain ⟨d, rfl⟩ : ∃ d, y = x + d := ⟨y - x, by omega⟩
    obtain ⟨e, he⟩ : ∃ e, W32 = e + d := ⟨W32 - d, by omega⟩
    have e1 : (x + (W32 - (x + d))) % W32 = e := by
      rw [Nat.mod_eq_of_lt (by omega)]
      omega
    have e2 : (x + d + (W32 - x)) % W32 = d := by
      have : x + d + (W32 - x) = d + W32 := by omega
      rw [this, Nat.add_mod_right, Nat.mod_eq_of_lt (by omega)]
    rw [e1, e2]
    have h3 : e * e + W32 * (2 * d) = d * d + W32 * W32 := by
      rw [he]
      ring
    calc e * e % W32 = (e * e + W32 * (2 * d)) % W32 := by rw [Nat.add_mul_mod_self_left]
      _ = (d * d + W32 * W32) % W32 := by rw [h3]
      _ = d * d % W32 := by rw [Nat.add_mul_mod_self_left]
  have hx : a % W32 < W32 := Nat.mod_lt _ (by decide)
  have hy : b % W32 < W32 := Nat.mod_lt _ (by decide)
  unfold mul32 sub32
  rcases Nat.lt_trichotomy (a % W32) (b % W32) with h | h | h
  · exact key _ _ hx hy h
  · rw [h]
  · exact (key _ _ hy hx h).symm

/-- Claim C12: in the program's `uint32` arithmetic a colour is at `distance` zero
from itself and `distance` is symmetric. -/
theorem distance_self_symm (a b : Color) :
    distance (some a) (some a) = .ok 0 ∧
      distance (some a) (some b) = distance (some b) (some a) := by
  refine ⟨distance_self a, ?_⟩
  simp only [distance, mul32_sub32_comm a.R b.R, mul32_sub32_comm a.G b.G,
    mul32_sub32_comm a.B b.B]

/-- Claim C20: for colours with channels in `0..65535`, `distance` is zero exactly
when the red, green and blue channels agree: the wrap-around never maps a
non-zero sum of squares to zero. -/
theorem distance_eq_zero_iff (a b : Color)
    (ha : a.R < 65536 ∧ a.G < 65536 ∧ a.B < 65536)
    (hb : b.R < 65536 ∧ b.G < 65536 ∧ b.B < 65536) :
    distance (some a) (some b) = .ok 0 ↔ (a.R = b.R ∧ a.G = b.G ∧ a.B = b.B) := by
  constructor
  · exact distance_zero ha hb
  · rintro ⟨h1, h2, h3⟩
    rw [distance_eq a b ha hb, h1, h2, h3]
    simp

theorem distance_eq_zero_iff_witness :
    distance (some ⟨65535, 0, 7, 65535, 0⟩) (some ⟨65535, 0, 7, 3, 1⟩) = .ok 0 ↔
      ((65535 : Nat) = 65535 ∧ (0 : Nat) = 0 ∧ (7 : Nat) = 7) :=
  distance_eq_zero_iff ⟨65535, 0, 7, 65535, 0⟩ ⟨65535, 0, 7, 3, 1⟩
    ⟨by decide, by decide, by decide⟩ ⟨by decide, by decide, by decide⟩

/-! ## `nearest` returns the first closest element -/

theorem getElem?_middle {α : Type} (pre : List α) (c : α) (post : List α) :
    (pre ++ c :: post)[pre.length]? = some c := by
  induction pre with
  | nil => simp
  | cons x xs ih => simpa using ih

theorem nearestLoop_first (a : Color) (cs : List Color) (i m : Nat) (r : Option Color)
    (hi : i ≠ 0) :
    (nearestLoop (some a) (cs.map some) i m r = .ok r ∧
        ∀ x ∈ cs, ∀ dx, distance (some a) (some x) = .ok dx → m ≤ dx) ∨
      ∃ pre c post d, cs = pre ++ c :: post ∧
        nearestLoop (some a) (cs.map some) i m r = .ok (some c) ∧
        distance (some a) (some c) = .ok d ∧ d < m ∧
        (∀ x ∈ pre, ∀ dx, distance (some a) (some x) = .ok dx → d < dx) ∧
        (∀ x ∈ post, ∀ dx, distance (some a) (some x) = .ok dx → d ≤ dx) := by
  induction cs generalizing i m r with
  | nil => exact Or.inl ⟨rfl, by simp⟩
  | cons c tl ih =>
    obtain ⟨dc, hdc⟩ := distance_some_some a c
    simp only [List.map_cons, nearestLoop, hdc, hi, false_or]
    by_cases hlt : dc < m
    · simp only [hlt, if_true]
      right
      rcases ih (i + 1) dc (some c) (by omega) with ⟨h1, h2⟩ | ⟨pre, c2, post, d, h1, h2, h3, h4, h5, h6⟩
      · exact ⟨[], c, tl, dc, rfl, h1, hdc, hlt, by simp, h2⟩
      · refine ⟨c :: pre, c2, post, d, by simp [h1], h2, h3, by omega, ?_, h6⟩
        intro x hx dx hdx
        rcases List.mem_cons.1 hx with rfl | hx
        · rw [hdc] at hdx
          simp only [Except.ok.injEq] at hdx
          omega
        · exact h5 x hx dx hdx
    · simp only [hlt, if_false]
      rcases ih (i + 1) m r (by omega) with ⟨h1, h2⟩ | ⟨pre, c2, post, d, h1, h2, h3, h4, h5, h6⟩
      · left
        refine ⟨h1, ?_⟩
        intro x hx dx hdx
        rcases List.mem_cons.1 hx with rfl | hx
        · rw [hdc] at hdx
          simp only [Except.ok.injEq] at hdx
          omega
        · exact h2 x hx dx hdx
      · right
        refine ⟨c :: pre, c2, post, d, by simp [h1], h2, h3, h4, ?_, h6⟩
        intro x hx dx hdx
        rcases List.mem_cons.1 hx with rfl | hx
        · rw [hdc] at hdx
          simp only [Except.ok.injEq] at hdx
          omega
        · exact h5 x hx dx hdx

/-- Claim C14: on a non-empty haystack `nearest` returns the element at the least
index that minimises the program's `distance` to the needle: the haystack
splits around the result into elements that are strictly farther (before it)
and elements that are at least as far (after it). -/
theorem nearest_first_min (a : Color) (cs : List Color) (hne : cs ≠ []) :
    ∃ pre c post d, cs = pre ++ c :: post ∧ cs[pre.length]? = some c ∧
      nearest (some a) (cs.map some) = .ok (some c) ∧
      distance (some a) (some c) = .ok d ∧
      (∀ x ∈ pre, ∀ dx, distance (some a) (some x) = .ok dx → d < dx) ∧
      (∀ x ∈ post, ∀ dx, distance (some a) (some x) = .ok dx → d ≤ dx) := by
  cases cs with
  | nil => exact absurd rfl hne
  | cons c tl =>
    obtain ⟨dc, hdc⟩ := distance_some_some a c
    have hn : nearest (some a) ((c :: tl).map some) =
        nearestLoop (some a) (tl.map some) 1 dc (some c) := by
      simp [nearest, nearestLoop, hdc]
    rw [hn]
    rcases nearestLoop_first a tl 1 dc (some c) (by decide) with
      ⟨h1, h2⟩ | ⟨pre, c2, post, d, h1, h2, h3, h4, h5, h6⟩
    · exact ⟨[], c, tl, dc, rfl, by simp, h1, hdc, by simp, h2⟩
    · refine ⟨c :: pre, c2, post, d, by simp [h1], ?_, h2, h3, ?_, h6⟩
      · rw [h1]
        exact getElem?_middle (c :: pre) c2 post
      · intro x hx dx hdx
        rcases List.mem_cons.1 hx with rfl | hx
        · rw [hdc] at hdx
          simp only [Except.ok.injEq] at hdx
          omega
        · exact h5 x hx dx hdx

theorem nearest_first_min_witness :
    ∃ pre c post d, ([⟨9, 9, 9, 0, 0⟩, ⟨4, 4, 4, 0, 0⟩, ⟨6, 6, 6, 0, 0⟩] : List Color) =
        pre ++ c :: post ∧
      ([⟨9, 9, 9, 0, 0⟩, ⟨4, 4, 4, 0, 0⟩, ⟨6, 6, 6, 0, 0⟩] : List Color)[pre.length]? = some c ∧
      nearest (some ⟨5, 5, 5, 0, 0⟩)
        (([⟨9, 9, 9, 0, 0⟩, ⟨4, 4, 4, 0, 0⟩, ⟨6, 6, 6, 0, 0⟩] : List Color).map some) =
          .ok (some c) ∧
      distance (some ⟨5, 5, 5, 0, 0⟩) (some c) = .ok d ∧
      (∀ x ∈ pre, ∀ dx, distance (some ⟨5, 5, 5, 0, 0⟩) (some x) = .ok dx → d < dx) ∧
      (∀ x ∈ post, ∀ dx, distance (some ⟨5, 5, 5, 0, 0⟩) (some x) = .ok dx → d ≤ dx) :=
  nearest_first_min ⟨5, 5, 5, 0, 0⟩ [⟨9, 9, 9, 0, 0⟩, ⟨4, 4, 4, 0, 0⟩, ⟨6, 6, 6, 0, 0⟩]
    (by simp)

/-! ## `findCentroid`: membership and the mean point -/

/-- On a cluster of colours whose length is not a multiple of `2^32`,
`findCentroid` returns one of the members. -/
theorem findCentroid_mem (cs : List Color) (hlen : cs.length % W32 ≠ 0) :
    ∃ c ∈ cs, findCentroid (cs.map some) = .ok (some c) := by
  obtain ⟨res, hres⟩ := findCentroid_total (cs.map some) (by simp) (by simpa using hlen)
  obtain ⟨hmem, _⟩ := findCentroid_ok hres
  obtain ⟨c, hc, rfl⟩ := List.mem_map.1 hmem
  exact ⟨c, hc, hres⟩

theorem findCentroid_replicate_wraps (c : Color) (n : Nat) (hmod : n % W32 = 0) :
    findCentroid (List.replicate n (some c)) = .error .divideByZero :=
  findCentroid_divideByZero (List.replicate n (some c))
    (fun x hx => by rw [List.eq_of_mem_replicate hx]; exact Option.some_ne_none c)
    (by rw [List.length_replicate]; exact hmod)

/-- Claim C13: a non-empty cluster on which `findCentroid` returns no member: on
`2^32` copies of a colour the `uint32` counter `count` is back at zero after the
summation loop and the division panics. -/
theorem findCentroid_count_overflow :
    findCentroid (List.replicate 4294967296 (some ⟨7, 7, 7, 65535, 0⟩)) =
      .error .divideByZero :=
  findCentroid_replicate_wraps ⟨7, 7, 7, 65535, 0⟩ 4294967296 (by decide)

/-- The accumulators after the summation loop: the channel sums and the number
of members, each modulo `2^32`. -/
theorem sumLoop_eq (cs : List Color) (s : Sums)
    (hs : s.r < W32 ∧ s.g < W32 ∧ s.b < W32 ∧ s.a < W32 ∧ s.count < W32) :
    sumLoop (cs.map some) s = .ok
      ⟨(s.r + (cs.map fun c => c.R).sum) % W32, (s.g + (cs.map fun c => c.G).sum) % W32,
       (s.b + (cs.map fun c => c.B).sum) % W32, (s.a + (cs.map fun c => c.A).sum) % W32,
       (s.count + cs.length) % W32⟩ := by
  induction cs generalizing s with
  | nil =>
    obtain ⟨h1, h2, h3, h4, h5⟩ := hs
    simp [sumLoop, Nat.mod_eq_of_lt, h1, h2, h3, h4, h5]
  | cons c rest ih =>
    have hW : 0 < W32 := by decide
    simp only [List.map_cons, sumLoop]
    rw [ih _ ⟨Nat.mod_lt _ hW, Nat.mod_lt _ hW, Nat.mod_lt _ hW, Nat.mod_lt _ hW,
      Nat.mod_lt _ hW⟩]
    simp only [add32, List.sum_cons, List.length_cons, Nat.mod_add_mod, Nat.add_assoc,
      Nat.add_comm 1]

theorem sum_le_of_bound (l : List Nat) (h : ∀ x ∈ l, x ≤ 65535) : l.sum ≤ l.length * 65535 := by
  induction l with
  | nil => simp
  | cons x xs ih =>
    have h1 := h x (by simp)
    have h2 := ih (fun y hy => h y (by simp [hy]))
    simp only [List.sum_cons, List.length_cons]
    omega

/-- On a non-empty cluster of at most `65537` colours with channels in
`0..65535` no accumulator of `findCentroid` wraps around: the result is the
member nearest to the exact truncated mean point. -/
theorem findCentroid_eq_mean (cs : List Color) (hne : cs ≠ []) (hlen : cs.length ≤ 65537)
    (hch : ∀ c ∈ cs, c.R ≤ 65535 ∧ c.G ≤ 65535 ∧ c.B ≤ 65535 ∧ c.A ≤ 65535) :
    findCentroid (cs.map some) = nearest (some (meanPoint cs)) (cs.map some) := by
  have hpos : 0 < cs.length := List.length_pos.2 hne
  have bound : ∀ f : Color → Nat, (∀ c ∈ cs, f c ≤ 65535) →
      (cs.map f).sum < W32 ∧ (cs.map f).sum / cs.length < W16 := by
    intro f hf
    have h1 := sum_le_of_bound (cs.map f) (by
      intro x hx
      obtain ⟨c, hc, rfl⟩ := List.mem_map.1 hx
      exact hf c hc)
    rw [List.length_map] at h1
    have h2 : cs.length * 65535 ≤ 65537 * 65535 := Nat.mul_le_mul_right _ hlen
    refine ⟨by unfold W32; omega, ?_⟩
    rw [Nat.div_lt_iff_lt_mul hpos]
    unfold W16
    nlinarith
  obtain ⟨r1, r2⟩ := bound (fun c => c.R) (fun c hc => (hch c hc).1)
  obtain ⟨g1, g2⟩ := bound (fun c => c.G) (fun c hc => (hch c hc).2.1)
  obtain ⟨b1, b2⟩ := bound (fun c => c.B) (fun c hc => (hch c hc).2.2.1)
  obtain ⟨a1, a2⟩ := bound (fun c => c.A) (fun c hc => (hch c hc).2.2.2)
  have hcount : cs.length % W32 = cs.length := Nat.mod_eq_of_lt (by unfold W32; omega)
  unfold findCentroid
  rw [sumLoop_eq cs ⟨0, 0, 0, 0, 0⟩ (by decide)]
  simp only [Nat.zero_add, hcount, Nat.mod_eq_of_lt r1, Nat.mod_eq_of_lt g1,
    Nat.mod_eq_of_lt b1, Nat.mod_eq_of_lt a1, Nat.pos_iff_ne_zero.1 hpos, if_false, center,
    Nat.mod_eq_of_lt r2, Nat.mod_eq_of_lt g2, Nat.mod_eq_of_lt b2, Nat.mod_eq_of_lt a2,
    meanPoint]

theorem nearestLoop_replicate (a c : Color) (d : Nat)
    (hd : distance (some a) (some c) = .ok d) (n i m : Nat) (r : Option Color) (hi : i ≠ 0) :
    nearestLoop (some a) (List.replicate n (some c)) i m r =
      .ok (if n ≠ 0 ∧ d < m then some c else r) := by
  induction n generalizing i m r with
  | zero => simp [nearestLoop]
  | succ n ih =>
    simp only [List.replicate_succ, nearestLoop, hd, hi, false_or]
    by_cases hlt : d < m
    · rw [if_pos hlt, ih (i + 1) d (some c) (by omega)]
      simp [hlt]
    · rw [if_neg hlt, ih (i + 1) m r (by omega)]
      simp [hlt]

/-- The result of `nearest` on a haystack that is one colour followed by `n` copies of
another. -/
theorem nearest_cons_replicate (a b w : Color) (n db dw : Nat)
    (hdb : distance (some a) (some b) = .ok db) (hdw : distance (some a) (some w) = .ok dw) :
    nearest (some a) ((b :: List.replicate n w).map some) =
      .ok (if n ≠ 0 ∧ dw < db then some w else some b) := by
  rw [List.map_cons, List.map_replicate]
  unfold nearest
  simp only [nearestLoop, hdb, true_or, if_true]
  exact nearestLoop_replicate a w dw hdw n 1 db (some b) (by decide)

theorem meanPoint_cons_replicate (b w : Color) (n : Nat) :
    meanPoint (b :: List.replicate n w) =
      ⟨(b.R + n * w.R) / (n + 1), (b.G + n * w.G) / (n + 1), (b.B + n * w.B) / (n + 1),
       (b.A + n * w.A) / (n + 1), 0⟩ := by
  simp only [meanPoint, List.map_cons, List.map_replicate, List.sum_cons, List.sum_replicate,
    smul_eq_mul, List.length_cons, List.length_replicate]

theorem findCentroid_cons_replicate (b w : Color) (n : Nat) (s : Sums) (db dw : Nat)
    (hs : s = ⟨(b.R + n * w.R) % W32, (b.G + n * w.G) % W32, (b.B + n * w.B) % W32,
      (b.A + n * w.A) % W32, (n + 1) % W32⟩)
    (hc : s.count ≠ 0)
    (hdb : distance (some (center s)) (some b) = .ok db)
    (hdw : distance (some (center s)) (some w) = .ok dw) :
    findCentroid ((b :: List.replicate n w).map some) =
      .ok (if n ≠ 0 ∧ dw < db then some w else some b) := by
  have hsum : sumLoop ((b :: List.replicate n w).map some) ⟨0, 0, 0, 0, 0⟩ = .ok s := by
    rw [sumLoop_eq _ ⟨0, 0, 0, 0, 0⟩ (by decide), hs]
    simp only [List.map_cons, List.map_replicate, List.sum_cons, List.sum_replicate,
      smul_eq_mul, List.length_cons, List.length_replicate, Nat.zero_add]
  unfold findCentroid
  rw [hsum]
  simp only [hc, if_false]
  exact nearest_cons_replicate (center s) b w n db dw hdb hdw

/-- Claim C15: a cluster of colours with channels in `0..65535` on which
`findCentroid` is not the member nearest to the exact truncated mean point:
black followed by `65538` copies of white.  The exact mean has colour channels
`65534` and white is nearest to it, but the `uint32` sums wrap around (to
`65534`, giving the mean `0`) and `findCentroid` returns black. -/
theorem findCentroid_sum_overflow :
    findCentroid ((⟨0, 0, 0, 255, 0⟩ ::
        List.replicate 65538 (⟨65535, 65535, 65535, 255, 0⟩ : Color)).map some) =
        .ok (some ⟨0, 0, 0, 255, 0⟩) ∧
      meanPoint (⟨0, 0, 0, 255, 0⟩ :: List.replicate 65538 ⟨65535, 65535, 65535, 255, 0⟩) =
        ⟨65534, 65534, 65534, 255, 0⟩ ∧
      nearest (some ⟨65534, 65534, 65534, 255, 0⟩) ((⟨0, 0, 0, 255, 0⟩ ::
        List.replicate 65538 (⟨65535, 65535, 65535, 255, 0⟩ : Color)).map some) =
        .ok (some ⟨65535, 65535, 65535, 255, 0⟩) := by
  refine ⟨?_, ?_, ?_⟩
  · have h := findCentroid_cons_replicate ⟨0, 0, 0, 255, 0⟩ ⟨65535, 65535, 65535, 255, 0⟩ 65538
      ⟨65534, 65534, 65534, 16712445, 65539⟩ 0 4294574083 rfl (by decide) rfl rfl
    rw [if_neg (by decide)] at h
    exact h
  · exact (meanPoint_cons_replicate ⟨0, 0, 0, 255, 0⟩ ⟨65535, 65535, 65535, 255, 0⟩ 65538).trans
      rfl
  · have h := nearest_cons_replicate ⟨65534, 65534, 65534, 255, 0⟩ ⟨0, 0, 0, 255, 0⟩
      ⟨65535, 65535, 65535, 255, 0⟩ 65538 4294180876 3 rfl rfl
    rw [if_pos (by decide)] at h
    exact h

/-! ## The centroid list between iterations and the control of the main loop -/

/-- Claim C16: a run on a valid input in which the centroid list handed to the
second iteration holds a nil entry.  With `k = 2`, three observations and both
initial draws hitting the first one, the first iteration yields a single
cluster, only the first slot of `newCentroids` is filled, and the second
iteration (loop counter `1`) starts from `[grey 300, nil]`, for every iteration
order of the map. -/
theorem loop_nil_slot (ord : Nat → Nat) :
    drawCentroids (fun _ => 0) [grey 0, grey 300, grey 300] 2 0 = .ok [grey 0, grey 0] ∧
      loop ord 2 [grey 0, grey 300, grey 300] 2 0 [grey 0, grey 0] [] =
        loop ord 2 [grey 0, grey 300, grey 300] 1 1 [grey 300, none]
          [(grey 0, [grey 0, grey 300, grey 300])] := by
  refine ⟨rfl, ?_⟩
  have h1 : assign [grey 0, grey 0] [grey 0, grey 300, grey 300] [] =
      .ok [(grey 0, [grey 0, grey 300, grey 300])] := rfl
  have h2 : update [(grey 0, [grey 0, grey 300, grey 300])] ⟨true, List.replicate 2 none, 0⟩ =
      .ok ⟨false, [grey 300, none], 1⟩ := rfl
  rw [loop_succ, h1]
  simp only [mapOrder_singleton, h2]
  rw [if_neg (by decide)]

/-- The trace of the main loop: the centroid lists, clusters and update states
of the executed iterations, chained as in the program. -/
theorem loop_trace (ord : Nat → Nat) (k : Nat) (obs : List (Option Color)) (n i : Nat)
    (cs : List (Option Color)) (cl : Clusters) (st : LoopState)
    (h : loop ord k obs n i cs cl = .ok st) :
    i ≤ st.iterations ∧ st.iterations ≤ i + n ∧
      (st.converged = false → st.iterations = i + n) ∧
      (st.converged = true → i < st.iterations) ∧
      (st.iterations = i → st.clusters = cl) ∧
      ∃ (css : Nat → List (Option Color)) (cls : Nat → Clusters) (us : Nat → UpdateState),
        css 0 = cs ∧ ∀ j, i + j < st.iterations →
          assign (css j) obs [] = .ok (cls j) ∧
          update (mapOrder (ord (i + j)) (cls j)) ⟨true, List.replicate k none, 0⟩ =
            .ok (us j) ∧
          css (j + 1) = (us j).newCentroids ∧
          (i + j + 1 < st.iterations → (us j).converged = false) ∧
          (i + j + 1 = st.iterations →
            cls j = st.clusters ∧ (us j).converged = st.converged) := by
  induction n generalizing i cs cl with
  | zero =>
    simp only [loop, Except.ok.injEq] at h
    subst h
    refine ⟨le_refl _, le_refl _, fun _ => rfl, by simp, fun _ => rfl,
      fun _ => cs, fun _ => [], fun _ => ⟨true, [], 0⟩, rfl, ?_⟩
    intro j hj
    simp only at hj
    omega
  | succ n ih =>
    rw [loop_succ] at h
    cases ha : assign cs obs [] with
    | error f => simp [ha] at h
    | ok clusters =>
      simp only [ha] at h
      cases hu : update (mapOrder (ord i) clusters) ⟨true, List.replicate k none, 0⟩ with
      | error f => simp [hu] at h
      | ok u =>
        simp only [hu] at h
        by_cases hconv : u.converged = true
        · rw [if_pos hconv] at h
          simp only [Except.ok.injEq] at h
          subst h
          refine ⟨by simp, by simp, by simp, by simp, by simp,
            fun j => if j = 0 then cs else u.newCentroids, fun _ => clusters, fun _ => u,
            by simp, ?_⟩
          intro j hj
          simp only at hj
          have hj0 : j = 0 := by omega
          subst hj0
          simp [ha, hu, hconv]
        · rw [if_neg hconv] at h
          obtain ⟨h1, h2, h3, h4, h5, css, cls, us, h6, h7⟩ := ih (i + 1) u.newCentroids clusters h
          have hconvf : u.converged = false := by simpa using hconv
          refine ⟨by omega, by omega, fun hc => by have := h3 hc; omega,
            fun hc => by have := h4 hc; omega, fun hi => by omega,
            fun j => match j with | 0 => cs | j + 1 => css j,
            fun j => match j with | 0 => clusters | j + 1 => cls j,
            fun j => match j with | 0 => u | j + 1 => us j, rfl, ?_⟩
          intro j hj
          cases j with
          | zero =>
            refine ⟨ha, hu, h6, fun _ => hconvf, ?_⟩
            intro hit
            have hit2 : st.iterations = i + 1 := by omega
            refine ⟨(h5 hit2).symm, ?_⟩
            cases hst : st.converged with
            | false => exact hconvf
            | true =>
              have := h4 hst
              omega
          | succ j =>
            have e : i + (j + 1) = i + 1 + j := by omega
            obtain ⟨r1, r2, r3, r4, r5⟩ := h7 j (by omega)
            rw [e]
            exact ⟨r1, r2, r3, fun hlt => r4 (by omega), fun heq => r5 (by omega)⟩

/-- The convergence flag of one iteration: it is set exactly when every cluster
of the iteration has its key as new centroid. -/
theorem flag_iff {k code : Nat} {clusters : Clusters} {u : UpdateState}
    (h : update (mapOrder code clusters) ⟨true, List.replicate k none, 0⟩ = .ok u) :
    u.converged = true ↔ ∀ e ∈ clusters, findCentroid e.2 = .ok e.1 := by
  rw [update_converged h]
  simp only [true_and]
  constructor
  · intro hall e he
    exact hall e ((mapOrder_perm code clusters).mem_iff.2 he)
  · intro hall e he
    exact hall e ((mapOrder_perm code clusters).mem_iff.1 he)

/-- Claim C17: the control of the main loop of a run that returns a map.  There
are centroid lists `css j`, clusters `cls j` and update states `us j` of the
executed iterations `j = 0 .. iterations-1`, chained as in the program, such
that the flag of an iteration is set exactly when every cluster of that
iteration has its key as new centroid; the flag is unset in every iteration but
the last; the loop is left through `break` exactly when the flag of the last
iteration is set, and otherwise after `maxIterations` iterations; the map is
built from the clusters of the last executed iteration; and after a `break`
every key is the new centroid of its cluster. -/
theorem Cluster_loop_control (rnd ord : Nat → Nat) (k maxIterations : Int)
    (observations : List (Option Color)) (m : Weights)
    (h : Cluster rnd ord k observations maxIterations = .ok (.ok m)) :
    ∃ (initial : List (Option Color)) (st : LoopState) (css : Nat → List (Option Color))
      (cls : Nat → Clusters) (us : Nat → UpdateState),
      drawCentroids rnd observations k.toNat 0 = .ok initial ∧
      loop ord k.toNat observations maxIterations.toNat 0 initial [] = .ok st ∧
      m = clusterWeights st.clusters observations.length ∧
      st.iterations ≤ maxIterations.toNat ∧
      (st.converged = false → st.iterations = maxIterations.toNat) ∧
      (st.converged = true → 0 < st.iterations) ∧
      (st.iterations = 0 → st.clusters = []) ∧
      (st.converged = true → ∀ e ∈ st.clusters, findCentroid e.2 = .ok e.1) ∧
      css 0 = initial ∧
      ∀ j, j < st.iterations →
        assign (css j) observations [] = .ok (cls j) ∧
        update (mapOrder (ord j) (cls j)) ⟨true, List.replicate k.toNat none, 0⟩ =
          .ok (us j) ∧
        ((us j).converged = true ↔ ∀ e ∈ cls j, findCentroid e.2 = .ok e.1) ∧
        css (j + 1) = (us j).newCentroids ∧
        (j + 1 < st.iterations → (us j).converged = false) ∧
        (j + 1 = st.iterations → cls j = st.clusters ∧ (us j).converged = st.converged) := by
  obtain ⟨_, _, initial, st, hd, hl, hm⟩ := Cluster_ok h
  obtain ⟨_, h2, h3, h4, h5, css, cls, us, h6, h7⟩ :=
    loop_trace ord k.toNat observations maxIterations.toNat 0 initial [] st hl
  have hrec : ∀ j, j < st.iterations →
      assign (css j) observations [] = .ok (cls j) ∧
      update (mapOrder (ord j) (cls j)) ⟨true, List.replicate k.toNat none, 0⟩ = .ok (us j) ∧
      ((us j).converged = true ↔ ∀ e ∈ cls j, findCentroid e.2 = .ok e.1) ∧
      css (j + 1) = (us j).newCentroids ∧
      (j + 1 < st.iterations → (us j).converged = false) ∧
      (j + 1 = st.iterations → cls j = st.clusters ∧ (us j).converged = st.converged) := by
    intro j hj
    obtain ⟨r1, r2, r3, r4, r5⟩ := h7 j (by omega)
    rw [Nat.zero_add] at r2
    exact ⟨r1, r2, flag_iff r2, r3, fun hlt => r4 (by omega), fun heq => r5 (by omega)⟩
  refine ⟨initial, st, css, cls, us, hd, hl, hm, by omega, fun hc => by have := h3 hc; omega,
    h4, h5, ?_, h6, hrec⟩
  intro hc
  have hpos := h4 hc
  obtain ⟨_, _, r3, _, _, r6⟩ := hrec (st.iterations - 1) (by omega)
  obtain ⟨e1, e2⟩ := r6 (by omega)
  rw [← e1]
  exact r3.1 (by rw [e2]; exact hc)

theorem Cluster_loop_control_witness :
    Cluster (fun _ => 1) (fun _ => 0) 1 [grey 0, grey 9, grey 5] 2 =
        .ok (.ok (clusterWeights [(grey 5, [grey 0, grey 9, grey 5])] 3)) ∧
      ∃ (initial : List (Option Color)) (st : LoopState) (css : Nat → List (Option Color))
        (cls : Nat → Clusters) (us : Nat → UpdateState),
        drawCentroids (fun _ => 1) [grey 0, grey 9, grey 5] (1 : Int).toNat 0 = .ok initial ∧
        loop (fun _ => 0) (1 : Int).toNat [grey 0, grey 9, grey 5] (2 : Int).toNat 0 initial [] =
          .ok st ∧
        clusterWeights [(grey 5, [grey 0, grey 9, grey 5])] 3 =
          clusterWeights st.clusters ([grey 0, grey 9, grey 5] : List (Option Color)).length ∧
        st.iterations ≤ (2 : Int).toNat ∧
        (st.converged = false → st.iterations = (2 : Int).toNat) ∧
        (st.converged = true → 0 < st.iterations) ∧
        (st.iterations = 0 → st.clusters = []) ∧
        (st.converged = true → ∀ e ∈ st.clusters, findCentroid e.2 = .ok e.1) ∧
        css 0 = initial ∧
        ∀ j, j < st.iterations →
          assign (css j) [grey 0, grey 9, grey 5] [] = .ok (cls j) ∧
          update (mapOrder ((fun _ => 0) j) (cls j))
            ⟨true, List.replicate (1 : Int).toNat none, 0⟩ = .ok (us j) ∧
          ((us j).converged = true ↔ ∀ e ∈ cls j, findCentroid e.2 = .ok e.1) ∧
          css (j + 1) = (us j).newCentroids ∧
          (j + 1 < st.iterations → (us j).converged = false) ∧
          (j + 1 = st.iterations → cls j = st.clusters ∧ (us j).converged = st.converged) :=
  ⟨rfl, Cluster_loop_control (fun _ => 1) (fun _ => 0) 1 2 [grey 0, grey 9, grey 5] _ rfl⟩

end Kmeans

namespace Palettor

open Kmeans

/-! ## `ColorEq` -/

theorem inBetween_iff (i lo hi : Nat) : inBetween i lo hi = true ↔ lo ≤ i ∧ i ≤ hi := by
  simp [inBetween]

/-- What `ColorEq` computes on colours with channels in `0..65535` for a
threshold below `2^32 - 65535`: the tolerance test succeeds only when the
threshold does not exceed any colour channel of `b`, since `r2 - th` wraps
around otherwise. -/
theorem ColorEq_iff (th : Nat) (a b : Color) (hth : th < W32 - 65535)
    (ha : a.R < 65536 ∧ a.G < 65536 ∧ a.B < 65536)
    (hb : b.R < 65536 ∧ b.G < 65536 ∧ b.B < 65536) :
    ColorEq th (some a) (some b) = .ok true ↔
      (th ≤ b.R ∧ th ≤ b.G ∧ th ≤ b.B) ∧
        a.R - b.R + (b.R - a.R) ≤ th ∧ a.G - b.G + (b.G - a.G) ≤ th ∧
        a.B - b.B + (b.B - a.B) ≤ th ∧ a.A = b.A := by
  have key : ∀ x y : Nat, x < 65536 → y < 65536 →
      (inBetween x (sub32 y th) (add32 y th) = true ↔ th ≤ y ∧ x - y + (y - x) ≤ th) := by
    intro x y hx hy
    rw [inBetween_iff]
    unfold sub32 add32
    unfold W32 at hth ⊢
    rw [Nat.mod_eq_of_lt (by omega : y < 4294967296),
      Nat.mod_eq_of_lt (by omega : th < 4294967296),
      Nat.mod_eq_of_lt (by omega : y + th < 4294967296)]
    by_cases hle : th ≤ y
    · have e : (y + (4294967296 - th)) % 4294967296 = y - th := by omega
      rw [e]
      omega
    · have e : (y + (4294967296 - th)) % 4294967296 = y + (4294967296 - th) := by omega
      rw [e]
      omega
  simp only [ColorEq, Except.ok.injEq, Bool.and_eq_true, decide_eq_true_eq,
    key _ _ ha.1 hb.1, key _ _ ha.2.1 hb.2.1, key _ _ ha.2.2 hb.2.2]
  tauto

/-- Claim C18: colours with channels in `0..65535` on which `ColorEq` is not the
per-channel tolerance test: with threshold `10` a colour with channels `5` is
not `ColorEq` to itself, and with threshold `12` the colours with red channels
`10` and `15` are `ColorEq` in one order only.  The lower bound `r2 - th` wraps
around below zero. -/
theorem ColorEq_underflow :
    ColorEq 10 (some ⟨5, 5, 5, 65535, 0⟩) (some ⟨5, 5, 5, 65535, 0⟩) = .ok false ∧
      ColorEq 12 (some ⟨10, 20, 20, 65535, 0⟩) (some ⟨15, 20, 20, 65535, 0⟩) = .ok true ∧
      ColorEq 12 (some ⟨15, 20, 20, 65535, 0⟩) (some ⟨10, 20, 20, 65535, 0⟩) = .ok false :=
  ⟨rfl, rfl, rfl⟩

/-! ## `ColorsXor` -/

theorem ColorEq_some (th : Nat) (a b : Color) : ∃ r, ColorEq th (some a) (some b) = .ok r :=
  ⟨_, rfl⟩

theorem foundIn_some (th : Nat) (c : Color) (l : List Color) :
    ∃ r, foundIn th (some c) (l.map some) = .ok r ∧
      (r = true ↔ ∃ s ∈ l, ColorEq th (some c) (some s) = .ok true) := by
  induction l with
  | nil => exact ⟨false, rfl, by simp⟩
  | cons s rest ih =>
    obtain ⟨r, hr⟩ := ColorEq_some th c s
    obtain ⟨q, hq1, hq2⟩ := ih
    cases r with
    | true =>
      refine ⟨true, by simp [foundIn, hr], ?_⟩
      simp only [true_iff]
      exact ⟨s, by simp, hr⟩
    | false =>
      refine ⟨q, by simp [foundIn, hr, hq1], ?_⟩
      rw [hq2]
      constructor
      · rintro ⟨x, hx, hxe⟩
        exact ⟨x, by simp [hx], hxe⟩
      · rintro ⟨x, hx, hxe⟩
        rcases List.mem_cons.1 hx with rfl | hx
        · rw [hr] at hxe
          simp at hxe
        · exact ⟨x, hx, hxe⟩

theorem xorLoop_append (th : Nat) (space l1 l2 acc : List (Option Color)) :
    xorLoop th space (l1 ++ l2) acc =
      match xorLoop th space l1 acc with
      | .error f => .error f
      | .ok r => xorLoop th space l2 r := by
  induction l1 generalizing acc with
  | nil => rfl
  | cons c rest ih =>
    simp only [List.cons_append, xorLoop]
    cases foundIn th c space with
    | error f => rfl
    | ok inSpace =>
      simp only []
      cases foundIn th c acc with
      | error f => rfl
      | ok inResult =>
        simp only []
        split
        · exact ih acc
        · exact ih (acc ++ [c])

/-- One step of the outer loop on colours. -/
theorem xorLoop_cons (th : Nat) (sp rest acc : List Color) (c : Color) :
    (((∃ s ∈ sp, ColorEq th (some c) (some s) = .ok true) ∨
        (∃ r ∈ acc, ColorEq th (some c) (some r) = .ok true)) ∧
        xorLoop th (sp.map some) ((c :: rest).map some) (acc.map some) =
          xorLoop th (sp.map some) (rest.map some) (acc.map some)) ∨
      ((∀ s ∈ sp, ColorEq th (some c) (some s) = .ok false) ∧
        (∀ r ∈ acc, ColorEq th (some c) (some r) = .ok false) ∧
        xorLoop th (sp.map some) ((c :: rest).map some) (acc.map some) =
          xorLoop th (sp.map some) (rest.map some) ((acc ++ [c]).map some)) := by
  obtain ⟨r1, h1, h1'⟩ := foundIn_some th c sp
  obtain ⟨r2, h2, h2'⟩ := foundIn_some th c acc
  have hfalse : ∀ l : List Color, (¬ ∃ s ∈ l, ColorEq th (some c) (some s) = .ok true) →
      ∀ s ∈ l, ColorEq th (some c) (some s) = .ok false := by
    intro l hl s hs
    obtain ⟨r, hr⟩ := ColorEq_some th c s
    cases r with
    | true => exact absurd ⟨s, hs, hr⟩ hl
    | false => exact hr
  simp only [List.map_cons, xorLoop, h1, h2]
  by_cases hf : r1 = true ∨ r2 = true
  · left
    refine ⟨hf.imp h1'.1 h2'.1, ?_⟩
    rw [if_pos (by simpa using hf)]
  · right
    have hf1 : ¬ r1 = true := fun h => hf (Or.inl h)
    have hf2 : ¬ r2 = true := fun h => hf (Or.inr h)
    refine ⟨hfalse sp (fun h => hf1 (h1'.2 h)), hfalse acc (fun h => hf2 (h2'.2 h)), ?_⟩
    rw [if_neg (by simpa using hf)]
    simp

/-- The outer loop on colours, started from a slice `acc` that satisfies the
two properties of a result: it extends `acc` by a subsequence of the rest and
the properties still hold. -/
theorem xorLoop_spec (th : Nat) (sp rest acc : List Color)
    (h1 : ∀ c ∈ acc, ∀ s ∈ sp, ColorEq th (some c) (some s) = .ok false)
    (h2 : acc.Pairwise fun r c => ColorEq th (some c) (some r) = .ok false) :
    ∃ tail, xorLoop th (sp.map some) (rest.map some) (acc.map some) =
        .ok ((acc ++ tail).map some) ∧ tail.Sublist rest ∧
      (∀ c ∈ acc ++ tail, ∀ s ∈ sp, ColorEq th (some c) (some s) = .ok false) ∧
      (acc ++ tail).Pairwise fun r c => ColorEq th (some c) (some r) = .ok false := by
  induction rest generalizing acc with
  | nil => exact ⟨[], by simp [xorLoop], List.Sublist.refl _, by simpa using h1, by simpa using h2⟩
  | cons c tl ih =>
    rcases xorLoop_cons th sp tl acc c with ⟨_, he⟩ | ⟨hs, hr, he⟩
    · obtain ⟨tail, t1, t2, t3, t4⟩ := ih acc h1 h2
      exact ⟨tail, he.trans t1, t2.cons c, t3, t4⟩
    · have h1' : ∀ x ∈ acc ++ [c], ∀ s ∈ sp, ColorEq th (some x) (some s) = .ok false := by
        intro x hx s hsp
        rcases List.mem_append.1 hx with hx | hx
        · exact h1 x hx s hsp
        · rw [List.mem_singleton.1 hx]
          exact hs s hsp
      have h2' : (acc ++ [c]).Pairwise fun r x => ColorEq th (some x) (some r) = .ok false := by
        rw [List.pairwise_append]
        refine ⟨h2, List.pairwise_singleton _ _, ?_⟩
        intro r hr' x hx
        rw [List.mem_singleton.1 hx]
        exact hr r hr'
      obtain ⟨tail, t1, t2, t3, t4⟩ := ih (acc ++ [c]) h1' h2'
      refine ⟨c :: tail, ?_, t2.cons₂ c, ?_, ?_⟩
      · rw [he, t1]
        simp
      · simpa using t3
      · simpa using t4

theorem map_some_injective {l1 l2 : List Color} (h : l1.map some = l2.map some) : l1 = l2 :=
  List.map_injective_iff.2 (Option.some_injective _) h

/-- What happens to the element after a prefix `pre` of the source: with `kept`
the result for `pre`, the result for the whole source starts with `kept`, and
either it goes on with `c` or `c` is `ColorEq` to an element of the space or of
`kept`. -/
theorem ColorsXor_split (th : Nat) (sp pre post res : List Color) (c : Color)
    (h : ColorsXor th ((pre ++ c :: post).map some) (sp.map some) = .ok (res.map some)) :
    ∃ kept, ColorsXor th (pre.map some) (sp.map some) = .ok (kept.map some) ∧ kept <+: res ∧
      ((kept ++ [c]) <+: res ∨ (∃ s ∈ sp, ColorEq th (some c) (some s) = .ok true) ∨
        (∃ r ∈ kept, ColorEq th (some c) (some r) = .ok true)) := by
  obtain ⟨kept, k1, _, k3, k4⟩ := xorLoop_spec th sp pre [] (by simp) (by simp)
  simp only [List.map_nil, List.nil_append] at k1 k3 k4
  refine ⟨kept, k1, ?_⟩
  unfold ColorsXor at h
  rw [List.map_append, xorLoop_append, k1] at h
  simp only [] at h
  rcases xorLoop_cons th sp post kept c with ⟨hfound, he⟩ | ⟨hs, hr, he⟩
  · obtain ⟨tail, t1, _⟩ := xorLoop_spec th sp post kept k3 k4
    rw [he, t1] at h
    simp only [Except.ok.injEq] at h
    have hres : res = kept ++ tail := (map_some_injective h).symm
    refine ⟨⟨tail, hres.symm⟩, Or.inr hfound⟩
  · have h1' : ∀ x ∈ kept ++ [c], ∀ s ∈ sp, ColorEq th (some x) (some s) = .ok false := by
      intro x hx s hsp
      rcases List.mem_append.1 hx with hx | hx
      · exact k3 x hx s hsp
      · rw [List.mem_singleton.1 hx]
        exact hs s hsp
    have h2' : (kept ++ [c]).Pairwise fun r x => ColorEq th (some x) (some r) = .ok false := by
      rw [List.pairwise_append]
      refine ⟨k4, List.pairwise_singleton _ _, ?_⟩
      intro r hr' x hx
      rw [List.mem_singleton.1 hx]
      exact hr r hr'
    obtain ⟨tail, t1, _⟩ := xorLoop_spec th sp post (kept ++ [c]) h1' h2'
    rw [he, t1] at h
    simp only [Except.ok.injEq] at h
    have hres : res = kept ++ [c] ++ tail := (map_some_injective h).symm
    refine ⟨⟨[c] ++ tail, by rw [hres, List.append_assoc]⟩, Or.inl ⟨tail, hres.symm⟩⟩

/-! ## `ColorsXor` with threshold zero -/

theorem sameRGBA_iff (a b : Color) :
    sameRGBA a b = true ↔ a.R = b.R ∧ a.G = b.G ∧ a.B = b.B ∧ a.A = b.A := by
  simp [sameRGBA, and_assoc]

/-- With threshold zero `ColorEq` is equality of the four channels. -/
theorem ColorEq_zero (a b : Color) (hb : b.R < W32 ∧ b.G < W32 ∧ b.B < W32) :
    ColorEq 0 (some a) (some b) = .ok (sameRGBA a b) := by
  have key : ∀ x y : Nat, y < W32 →
      inBetween x (sub32 y 0) (add32 y 0) = decide (x = y) := by
    intro x y hy
    have e1 : sub32 y 0 = y := by
      unfold sub32
      unfold W32 at hy ⊢
      omega
    have e2 : add32 y 0 = y := by
      unfold add32
      unfold W32 at hy ⊢
      omega
    rw [e1, e2, Bool.eq_iff_iff]
    simp only [inBetween, Bool.and_eq_true, decide_eq_true_eq]
    omega
  simp only [ColorEq, sameRGBA, key _ _ hb.1, key _ _ hb.2.1, key _ _ hb.2.2]

theorem foundIn_cons (th : Nat) (c s : Option Color) (rest : List (Option Color)) :
    foundIn th c (s :: rest) =
      match ColorEq th c s with
      | .error f => .error f
      | .ok true => .ok true
      | .ok false => foundIn th c rest := rfl

theorem foundIn_zero (c : Color) (l : List Color)
    (hl : ∀ s ∈ l, s.R < W32 ∧ s.G < W32 ∧ s.B < W32) :
    foundIn 0 (some c) (l.map some) = .ok (l.any fun s => sameRGBA c s) := by
  induction l with
  | nil => rfl
  | cons s rest ih =>
    have hrest := ih (fun x hx => hl x (by simp [hx]))
    rw [List.map_cons, foundIn_cons, ColorEq_zero c s (hl s (by simp)), List.any_cons]
    cases hs : sameRGBA c s with
    | true => rfl
    | false =>
      rw [hrest]
      rfl

theorem firstOccurrences_filter (q : Color → Bool)
    (hq : ∀ x y, sameRGBA x y = true → q x = q y) (l : List Color) :
    firstOccurrences (l.filter q) = (firstOccurrences l).filter q := by
  induction l with
  | nil => rfl
  | cons x xs ih =>
    by_cases hx : q x = true
    · simp only [List.filter_cons, hx, if_true, firstOccurrences, ih, List.filter_filter]
      congr 1
      apply List.filter_congr
      intro d _
      exact Bool.and_comm _ _
    · simp only [List.filter_cons, hx, firstOccurrences, List.filter_filter]
      simp only [Bool.false_eq_true, if_false]
      rw [ih]
      apply List.filter_congr
      intro d _
      cases hd : sameRGBA d x with
      | false => simp
      | true =>
        have := hq d x hd
        simp only [Bool.not_eq_true] at hx
        simp [this, hx]

theorem not_same_respects (c : Color) :
    ∀ x y, sameRGBA x y = true → (!sameRGBA x c) = (!sameRGBA y c) := by
  intro x y hxy
  rw [sameRGBA_iff] at hxy
  obtain ⟨h1, h2, h3, h4⟩ := hxy
  simp only [sameRGBA, h1, h2, h3, h4]

/-- The outer loop with threshold zero, in closed form. -/
theorem xorLoop_zero (sp rest acc : List Color)
    (hsp : ∀ s ∈ sp, s.R < W32 ∧ s.G < W32 ∧ s.B < W32)
    (hacc : ∀ s ∈ acc, s.R < W32 ∧ s.G < W32 ∧ s.B < W32)
    (hrest : ∀ s ∈ rest, s.R < W32 ∧ s.G < W32 ∧ s.B < W32) :
    xorLoop 0 (sp.map some) (rest.map some) (acc.map some) =
      .ok ((acc ++ firstOccurrences (rest.filter fun c =>
        (!sp.any fun s => sameRGBA c s) && !acc.any fun s => sameRGBA c s)).map some) := by
  induction rest generalizing acc with
  | nil => simp [xorLoop, firstOccurrences]
  | cons c tl ih =>
    have htl : ∀ s ∈ tl, s.R < W32 ∧ s.G < W32 ∧ s.B < W32 := fun s hs => hrest s (by simp [hs])
    simp only [List.map_cons, xorLoop, foundIn_zero c sp hsp, foundIn_zero c acc hacc]
    by_cases hf : ((sp.any fun s => sameRGBA c s) || acc.any fun s => sameRGBA c s) = true
    · rw [if_pos hf, ih acc hacc htl]
      have hP : ((!sp.any fun s => sameRGBA c s) && !acc.any fun s => sameRGBA c s) = false := by
        simp only [Bool.or_eq_true] at hf
        rcases hf with h | h <;> simp [h]
      simp only [List.filter_cons, hP, Bool.false_eq_true, if_false]
    · rw [if_neg hf]
      have hP : ((!sp.any fun s => sameRGBA c s) && !acc.any fun s => sameRGBA c s) = true := by
        simp only [Bool.or_eq_true, not_or, Bool.not_eq_true] at hf
        simp [hf.1, hf.2]
      have hacc2 : ∀ s ∈ acc ++ [c], s.R < W32 ∧ s.G < W32 ∧ s.B < W32 := by
        intro s hs
        rcases List.mem_append.1 hs with hs | hs
        · exact hacc s hs
        · rw [List.mem_singleton.1 hs]
          exact hrest c (by simp)
      have e := ih (acc ++ [c]) hacc2 htl
      rw [← List.map_singleton, ← List.map_append, e]
      simp only [List.filter_cons, hP, if_true, firstOccurrences, List.append_assoc,
        List.singleton_append]
      congr 3
      rw [← firstOccurrences_filter _ (not_same_respects c), List.filter_filter]
      refine congrArg (fun l => c :: firstOccurrences l) (List.filter_congr ?_)
      intro d _
      simp only [List.any_append, List.any_cons, List.any_nil, Bool.or_false, Bool.not_or]
      cases (sp.any fun s => sameRGBA d s) <;> cases (acc.any fun s => sameRGBA d s) <;>
        cases sameRGBA d c <;> rfl

/-- Claim C19: on colours `ColorsXor` returns a subsequence `res` of `src` such
that no element of `res` is `ColorEq` to an element of `space` or to an element
of `res` before it, and every element of `src` either is appended to what was
kept of the elements before it or is `ColorEq` to an element of `space` or to
one kept before it.  With threshold zero `res` is the list of the distinct
colours (by channel values) of `src` that do not occur in `space`, in order of
first occurrence. -/
theorem ColorsXor_spec (th : Nat) (src space : List Color) :
    ∃ res : List Color,
      ColorsXor th (src.map some) (space.map some) = .ok (res.map some) ∧
      res.Sublist src ∧
      (∀ c ∈ res, ∀ s ∈ space, ColorEq th (some c) (some s) = .ok false) ∧
      (res.Pairwise fun r c => ColorEq th (some c) (some r) = .ok false) ∧
      (∀ pre c post, src = pre ++ c :: post →
        ∃ kept, ColorsXor th (pre.map some) (space.map some) = .ok (kept.map some) ∧
          kept <+: res ∧
          ((kept ++ [c]) <+: res ∨ (∃ s ∈ space, ColorEq th (some c) (some s) = .ok true) ∨
            (∃ r ∈ kept, ColorEq th (some c) (some r) = .ok true))) ∧
      (th = 0 → (∀ c ∈ src ++ space, c.R < W32 ∧ c.G < W32 ∧ c.B < W32) →
        res = distinctNotIn src space) := by
  obtain ⟨res, r1, r2, r3, r4⟩ := xorLoop_spec th space src [] (by simp) (by simp)
  simp only [List.map_nil, List.nil_append] at r1 r3 r4
  refine ⟨res, r1, r2, r3, r4, ?_, ?_⟩
  · intro pre c post hsplit
    subst hsplit
    exact ColorsXor_split th space pre post res c r1
  · intro hth hch
    subst hth
    have hz := xorLoop_zero space src [] (fun s hs => hch s (by simp [hs])) (by simp)
      (fun s hs => hch s (by simp [hs]))
    simp only [List.map_nil, List.nil_append, List.any_nil, Bool.not_false, Bool.and_true] at hz
    rw [hz] at r1
    simp only [Except.ok.injEq] at r1
    exact (map_some_injective r1).symm

end Palettor
